import Mathlib

/-!
Verification of the protobuf-rs wire-format codec core.

Shallow embedding conventions:
* byte buffers are `List Nat`, each element a byte value (`< 256` wherever a
  buffer came from real writes);
* machine integers are `Nat` (unsigned bit patterns) or `Int` (signed values),
  with explicit `% 2 ^ w` at the places where the source's fixed-width
  arithmetic can wrap;
* fallible operations return `Except`, and stateful cursor operations return
  the updated state alongside the result.
-/

set_option maxRecDepth 10000

namespace Pb

/-- The varint write loop shared verbatim by every writer in the repository
(`Writer::uint32` in src/src/writer.rs, `write_varint_internal` in
src/src/rust/writer.rs, `WriterImpl::write_varint32/64` in
src/rust/src/writer.rs, `encode_varint` in src/src/lib.rs):
`byte = n & 0x7F; n >>= 7; if n != 0 { byte |= 0x80 }; push byte;`
repeated until `n == 0`. -/
def writeVarintLoop (n : Nat) : List Nat :=
  if n >>> 7 = 0 then [n &&& 0x7F]
  else ((n &&& 0x7F) ||| 0x80) :: writeVarintLoop (n >>> 7)
termination_by n
decreasing_by
  rename_i h
  have hn : n ≠ 0 := by rintro rfl; simp at h
  calc n >>> 7 = n / 2 ^ 7 := Nat.shiftRight_eq_div_pow n 7
    _ < n := Nat.div_lt_self (Nat.pos_of_ne_zero hn) (by norm_num)

/-- Closed form of `writeVarintLoop`: base-128 digits, continuation bit
`0x80` on every byte except the last. -/
def varintBytes (n : Nat) : List Nat :=
  if n < 128 then [n] else (n % 128 + 128) :: varintBytes (n / 128)
termination_by n
decreasing_by exact Nat.div_lt_self (by omega) (by omega)

theorem and_127_eq_mod (b : Nat) : b &&& 0x7F = b % 128 := by
  have h := Nat.and_pow_two_sub_one_eq_mod b 7
  norm_num at h
  exact h

theorem and_128_eq_zero {b : Nat} (hb : b < 128) : b &&& 0x80 = 0 := by
  apply Nat.eq_of_testBit_eq
  intro i
  rw [Nat.testBit_and, Nat.zero_testBit]
  have h7 : (0x80 : Nat) = 2 ^ 7 := by norm_num
  rw [h7, Nat.testBit_two_pow]
  by_cases h : 7 = i
  · subst h
    have hb' : b < 2 ^ 7 := by norm_num; exact hb
    rw [Nat.testBit_lt_two_pow hb']
    simp
  · simp [h]

theorem and_128_of_ge {b : Nat} (h1 : 128 ≤ b) (h2 : b < 256) : b &&& 0x80 = 128 := by
  apply Nat.eq_of_testBit_eq
  intro i
  rw [Nat.testBit_and]
  have h7 : (0x80 : Nat) = 2 ^ 7 := by norm_num
  rw [h7, Nat.testBit_two_pow]
  by_cases h : 7 = i
  · subst h
    have hb : b.testBit 7 = true := by
      rw [Nat.testBit_to_div_mod]
      have : b / 2 ^ 7 = 1 := by norm_num; omega
      rw [this]
      decide
    simp [hb, Nat.testBit_two_pow]
  · have : (2 ^ 7 : Nat).testBit i = false := Nat.testBit_two_pow_of_ne h
    simp [h, this]

theorem lor_shiftLeft_eq_add {a : Nat} (k b : Nat) (ha : a < 2 ^ k) :
    a ||| b <<< k = b * 2 ^ k + a := by
  rw [Nat.shiftLeft_eq, Nat.lor_comm, Nat.mul_comm]
  exact (Nat.mul_add_lt_is_or ha b).symm

theorem shiftLeft_lor_distrib (x y s : Nat) :
    (x ||| y) <<< s = x <<< s ||| y <<< s := by
  apply Nat.eq_of_testBit_eq
  intro i
  simp [Nat.testBit_shiftLeft, Nat.testBit_or, Bool.and_or_distrib_left]

/-- Recombining one base-128 digit with the rest of the value inside the
decoder's accumulator. -/
theorem varint_digit_lor (n shift : Nat) :
    (n % 128) <<< shift ||| (n / 128) <<< (shift + 7) = n <<< shift := by
  have h1 : (n / 128) <<< (shift + 7) = ((n / 128) <<< 7) <<< shift := by
    rw [Nat.add_comm shift 7, Nat.shiftLeft_add]
  rw [h1, ← shiftLeft_lor_distrib]
  congr 1
  have ha : n % 128 < 2 ^ 7 := by norm_num; omega
  rw [lor_shiftLeft_eq_add 7 (n / 128) ha]
  norm_num
  omega

theorem xor_two_pow_sub_one {k x : Nat} (h : x < 2 ^ k) :
    x ^^^ (2 ^ k - 1) = 2 ^ k - 1 - x := by
  apply Nat.eq_of_testBit_eq
  intro i
  rw [Nat.testBit_xor, Nat.testBit_two_pow_sub_one]
  have h2 : 2 ^ k - 1 - x = 2 ^ k - (x + 1) := by omega
  rw [h2, Nat.testBit_two_pow_sub_succ h]
  by_cases hik : i < k
  · simp [hik]
  · have hxi : x.testBit i = false :=
      Nat.testBit_lt_two_pow
        (lt_of_lt_of_le h (Nat.pow_le_pow_right (by norm_num) (by omega)))
    simp [hik, hxi]

theorem writeVarintLoop_eq (n : Nat) : writeVarintLoop n = varintBytes n := by
  induction n using Nat.strong_induction_on with
  | _ n ih =>
    unfold writeVarintLoop varintBytes
    have hdiv : n >>> 7 = n / 128 := by
      rw [Nat.shiftRight_eq_div_pow]
    rw [hdiv, and_127_eq_mod]
    by_cases h : n / 128 = 0
    · have hn : n < 128 := by omega
      simp [h, hn, Nat.mod_eq_of_lt hn]
    · have hn : ¬ n < 128 := by
        intro hc
        exact h (Nat.div_eq_of_lt hc)
      have hm : n % 128 < 2 ^ 7 := by norm_num; omega
      have hor : n % 128 ||| 0x80 = n % 128 + 128 := by
        have h2 := Nat.mul_add_lt_is_or hm 1
        norm_num at h2
        rw [Nat.lor_comm] at h2
        omega
      simp [h, hn, hor, ih (n / 128) (Nat.div_lt_self (by omega) (by norm_num))]

theorem varintBytes_small {n : Nat} (h : n < 128) : varintBytes n = [n] := by
  rw [varintBytes.eq_def]
  simp [h]

theorem writeVarintLoop_small {n : Nat} (h : n < 128) : writeVarintLoop n = [n] := by
  rw [writeVarintLoop_eq, varintBytes_small h]

theorem varintBytes_ne_nil (n : Nat) : varintBytes n ≠ [] := by
  unfold varintBytes
  by_cases h : n < 128 <;> simp [h]

theorem varintBytes_length_pos (n : Nat) : 0 < (varintBytes n).length :=
  List.length_pos.mpr (varintBytes_ne_nil n)

/-- Every byte a varint write loop emits is a valid byte value. -/
theorem varintBytes_lt_256 (n : Nat) : ∀ b ∈ varintBytes n, b < 256 := by
  induction n using Nat.strong_induction_on with
  | _ n ih =>
    unfold varintBytes
    by_cases h : n < 128
    · simp [h]; omega
    · simp only [h, if_false, List.mem_cons]
      rintro b (rfl | hb)
      · have := Nat.mod_lt n (show 0 < 128 by norm_num)
        omega
      · exact ih (n / 128) (Nat.div_lt_self (by omega) (by norm_num)) b hb


/-- Facts recoverable from a `drop`-decomposition of a buffer: the byte at the
cursor, the rest of the buffer, and the bound on the cursor. -/
theorem drop_cons_facts {α} {buf l : List α} {pos : Nat} {b : α}
    (h : buf.drop pos = b :: l) :
    buf[pos]? = some b ∧ buf.drop (pos + 1) = l ∧ pos < buf.length := by
  have hlen := congrArg List.length h
  simp at hlen
  have hlt : pos < buf.length := by omega
  have h2 := List.drop_eq_getElem_cons hlt
  rw [h] at h2
  injection h2 with hb hl
  exact ⟨by rw [List.getElem?_eq_getElem hlt, hb], by rw [← hl], hlt⟩

instance {e a : Type} [DecidableEq e] [DecidableEq a] : DecidableEq (Except e a)
  | .error x, .error y => decidable_of_iff (x = y) (by simp)
  | .error _, .ok _ => isFalse fun h => Except.noConfusion h
  | .ok _, .error _ => isFalse fun h => Except.noConfusion h
  | .ok x, .ok y => decidable_of_iff (x = y) (by simp)

/-- Reinterpreting a u64 bit pattern as an i64 (Rust's `as i64` cast). -/
def u64AsI64 (n : Nat) : Int :=
  if n < 2 ^ 63 then (n : Int) else (n : Int) - 2 ^ 64

/-- Reinterpreting an i64 as a u64 bit pattern (Rust's `as u64` cast). -/
def i64ToU64 (v : Int) : Nat := (v % (2 ^ 64 : Int)).toNat

/-- UTF-8 continuation byte, `0x80 ..= 0xBF`. -/
def isCont (b : Nat) : Bool := decide (0x80 ≤ b ∧ b ≤ 0xBF)

/-- The UTF-8 validity check performed by Rust's `std::str::from_utf8` /
`String::from_utf8` (RFC 3629 table: no overlong forms, no surrogates, no
code points above U+10FFFF). -/
def utf8Valid : List Nat → Bool
  | [] => true
  | b :: r =>
    if b ≤ 0x7F then utf8Valid r
    else if 0xC2 ≤ b ∧ b ≤ 0xDF then
      match r with
      | c1 :: r2 => isCont c1 && utf8Valid r2
      | [] => false
    else if b = 0xE0 then
      match r with
      | c1 :: c2 :: r3 => decide (0xA0 ≤ c1 ∧ c1 ≤ 0xBF) && isCont c2 && utf8Valid r3
      | _ => false
    else if (0xE1 ≤ b ∧ b ≤ 0xEC) ∨ b = 0xEE ∨ b = 0xEF then
      match r with
      | c1 :: c2 :: r3 => isCont c1 && isCont c2 && utf8Valid r3
      | _ => false
    else if b = 0xED then
      match r with
      | c1 :: c2 :: r3 => decide (0x80 ≤ c1 ∧ c1 ≤ 0x9F) && isCont c2 && utf8Valid r3
      | _ => false
    else if b = 0xF0 then
      match r with
      | c1 :: c2 :: c3 :: r4 =>
        decide (0x90 ≤ c1 ∧ c1 ≤ 0xBF) && isCont c2 && isCont c3 && utf8Valid r4
      | _ => false
    else if 0xF1 ≤ b ∧ b ≤ 0xF3 then
      match r with
      | c1 :: c2 :: c3 :: r4 => isCont c1 && isCont c2 && isCont c3 && utf8Valid r4
      | _ => false
    else if b = 0xF4 then
      match r with
      | c1 :: c2 :: c3 :: r4 =>
        decide (0x80 ≤ c1 ∧ c1 ≤ 0x8F) && isCont c2 && isCont c3 && utf8Valid r4
      | _ => false
    else false

namespace SrcReader

/-- Error values of src/src/reader.rs, one constructor per
`Error::from_reason` message. -/
inductive Err where
  | bufferUnderflow
  | varintOverflow
  | varintTooLong
  | invalidUtf8
deriving DecidableEq

/-- The `Reader` struct of src/src/reader.rs: an owned byte buffer plus a
cursor `pos`. -/
structure Reader where
  buffer : List Nat
  pos : Nat
deriving DecidableEq

/-- Loop of `Reader::uint32` (src/src/reader.rs lines 46-72).  `fuel` counts
the iterations left out of 5 (so the iteration with `fuel = 1` is the source's
`i == 4`): bounds check, read byte and advance, 5th-byte overflow check
(`byte > 0x0F`), accumulate `((byte & 0x7F) as u32) << shift`, stop when the
continuation bit is clear.  Returns the result alongside the final cursor
position (the source mutates `self.pos` in place, also on error paths). -/
def uint32Go (buf : List Nat) : Nat → Nat → Nat → Nat → Except Err Nat × Nat
  | pos, _, _, 0 => (.error .varintTooLong, pos)
  | pos, result, shift, fuel + 1 =>
    match buf[pos]? with
    | none => (.error .bufferUnderflow, pos)
    | some byte =>
      if fuel == 0 && decide (0x0F < byte) then (.error .varintOverflow, pos + 1)
      else
        let result' := result ||| ((byte &&& 0x7F) <<< shift) % 2 ^ 32
        if byte &&& 0x80 == 0 then (.ok result', pos + 1)
        else uint32Go buf (pos + 1) result' (shift + 7) fuel

/-- `Reader::uint32`: read a 32-bit varint at the cursor. -/
def Reader.uint32 (r : Reader) : Except Err Nat × Reader :=
  let res := uint32Go r.buffer r.pos 0 0 5
  (res.1, { r with pos := res.2 })

/-- `Reader::string` (src/src/reader.rs lines 92-106): read a varint length,
bounds-check, advance the cursor past the payload, then validate UTF-8.
The decoded string is modelled by its byte list. -/
def Reader.string (r : Reader) : Except Err (List Nat) × Reader :=
  match r.uint32 with
  | (.error e, r1) => (.error e, r1)
  | (.ok len, r1) =>
    if r1.buffer.length < r1.pos + len then (.error .bufferUnderflow, r1)
    else
      let slice := (r1.buffer.drop r1.pos).take len
      let r2 : Reader := { r1 with pos := r1.pos + len }
      if utf8Valid slice then (.ok slice, r2) else (.error .invalidUtf8, r2)

end SrcReader

namespace SrcWriter

/-- The `Writer` struct of src/src/writer.rs: a single growable buffer. -/
structure Writer where
  buffer : List Nat
deriving DecidableEq

def Writer.new : Writer := ⟨[]⟩

/-- `Writer::uint32` (src/src/writer.rs lines 82-102): append the varint
encoding of `value` (a `u32`). -/
def Writer.uint32 (w : Writer) (value : Nat) : Writer :=
  ⟨w.buffer ++ writeVarintLoop value⟩

/-- `Writer::finish`: return the accumulated bytes. -/
def Writer.finish (w : Writer) : List Nat := w.buffer

/-- Net effect on the buffer of any sequence of write calls: every write
method of this `Writer` only appends bytes.  Used to model "writing payload
bytes" between `fork` and `ldelim`. -/
def Writer.appendRaw (w : Writer) (p : List Nat) : Writer :=
  ⟨w.buffer ++ p⟩

/-- `Writer::fork` (src/src/writer.rs lines 325-332): remember the current
length and push a single placeholder byte; returns the mark. -/
def Writer.fork (w : Writer) : Nat × Writer :=
  (w.buffer.length, ⟨w.buffer ++ [0]⟩)

/-- Rust's `copy_within src_start..src_end -> dest` on a list (reads the
source range from the pre-copy contents, as `memmove` does). -/
def copyWithin (l : List Nat) (srcStart srcEnd dest : Nat) : List Nat :=
  l.take dest ++ (l.drop srcStart).take (srcEnd - srcStart)
    ++ l.drop (dest + (srcEnd - srcStart))

/-- Writing `bs` over the positions `i ..= i + bs.length - 1` of `l`
(the source's `for (i, &byte) ... buffer[fork_pos + i] = byte` loop; all
writes are in bounds wherever this model is used). -/
def writeAt (l : List Nat) (i : Nat) (bs : List Nat) : List Nat :=
  l.take i ++ bs ++ l.drop (i + bs.length)

/-- `Writer::ldelim` (src/src/writer.rs lines 340-377): compute the section
length, varint-encode it (`msg_len` is a `u32`), extend and shift the buffer
when the varint needs more than the placeholder byte, and write the length
varint at the fork position.  The source always returns `Ok(())`. -/
def Writer.ldelim (w : Writer) (forkPos : Nat) : Writer :=
  let currentLen := w.buffer.length
  let msgLen := (currentLen - forkPos - 1) % 2 ^ 32
  let lenBytes := writeVarintLoop msgLen
  let buffer1 :=
    if 1 < lenBytes.length then
      copyWithin (w.buffer ++ List.replicate (lenBytes.length - 1) 0)
        (forkPos + 1) currentLen (forkPos + lenBytes.length)
    else w.buffer
  ⟨writeAt buffer1 forkPos lenBytes⟩

end SrcWriter

namespace SrcLib

/-- Error values of src/src/lib.rs, one constructor per
`Error::from_reason` message. -/
inductive Err where
  | varintTooLong
  | varintOverflow
  | incompleteVarint
  | emptyBuffer
  | invalidTag
deriving DecidableEq

/-- Loop of `decode_varint` (src/src/lib.rs lines 59-84), iterating over the
remaining bytes with running index `i`: 10-byte cap, 10th-byte overflow check
(`byte > 1`), accumulate into a u64, stop on a clear continuation bit; if the
bytes run out first the varint is incomplete. -/
def dvGo : List Nat → Nat → Nat → Nat → Except Err Nat
  | [], _, _, _ => .error .incompleteVarint
  | b :: rest, i, result, shift =>
    if 10 ≤ i then .error .varintTooLong
    else if i == 9 && decide (1 < b) then .error .varintOverflow
    else
      let result' := result ||| ((b &&& 0x7F) <<< shift) % 2 ^ 64
      if b &&& 0x80 == 0 then .ok result'
      else dvGo rest (i + 1) result' (shift + 7)

/-- `decode_varint` (src/src/lib.rs lines 59-84). -/
def decode_varint (bytes : List Nat) : Except Err Int :=
  (dvGo bytes 0 0 0).map u64AsI64

/-- `encode_varint` (src/src/lib.rs lines 87-107): reinterpret the i64 as a
u64 and run the shared varint write loop. -/
def encode_varint (value : Int) : List Nat :=
  writeVarintLoop (i64ToU64 value)

/-- `decode_field_tag` (src/src/lib.rs lines 121-132).  `tag >> 3` is an i64
arithmetic shift, i.e. floor division by 8; `tag & 0x7` keeps the low three
bits, i.e. the value modulo 8. -/
def decode_field_tag (bytes : List Nat) : Except Err (List Int) :=
  if bytes.isEmpty then .error .emptyBuffer
  else (decode_varint bytes).map fun tag => [Int.fdiv tag 8, tag % 8]

/-- `encode_field_tag` (src/src/lib.rs lines 135-145).  In the validated
range both components are non-negative and `wire_type < 8`, so the source's
`(field_number << 3) | wire_type` equals `8 * field_number + wire_type`. -/
def encode_field_tag (field_number wire_type : Int) : Except Err (List Nat) :=
  if ¬ (1 ≤ field_number ∧ field_number ≤ 536870911)
      ∨ (19000 ≤ field_number ∧ field_number ≤ 19999)
      ∨ ¬ (0 ≤ wire_type ∧ wire_type ≤ 5) then
    .error .invalidTag
  else
    .ok (encode_varint (8 * field_number + wire_type))

end SrcLib

/-- `Reader::uint32` decodes each canonical varint exactly, one 7-bit digit
per loop iteration.  Generalised over the accumulator, the shift, and the
remaining fuel so the statement is preserved by the loop. -/
theorem uint32Go_varint :
    ∀ (fuel n acc shift pos : Nat) (buf rest : List Nat),
      buf.drop pos = varintBytes n ++ rest →
      1 ≤ fuel → fuel ≤ 5 →
      n < 2 ^ (7 * (fuel - 1) + 4) →
      shift = 7 * (5 - fuel) →
      SrcReader.uint32Go buf pos acc shift fuel =
        (.ok (acc ||| n <<< shift), pos + (varintBytes n).length) := by
  intro fuel
  induction fuel with
  | zero => intro n acc shift pos buf rest _ h1 _ _ _; omega
  | succ f ih =>
    intro n acc shift pos buf rest hdrop _ h5 hn hshift
    have hf4 : f ≤ 4 := by omega
    have hn' : n < 2 ^ (7 * f + 4) := by
      have : 7 * (f + 1 - 1) + 4 = 7 * f + 4 := by omega
      rwa [this] at hn
    by_cases hsmall : n < 128
    · have hvb : varintBytes n = [n] := by unfold varintBytes; simp [hsmall]
      rw [hvb] at hdrop
      obtain ⟨hget, _, _⟩ := drop_cons_facts hdrop
      have hcond : (f == 0 && decide (0x0F < n)) = false := by
        by_cases hf : f = 0
        · subst hf
          have h16 : n < 16 := by norm_num at hn'; omega
          simp [decide_eq_false (by omega : ¬ (0x0F < n))]
        · simp [hf]
      have hshift21 : shift ≤ 28 := by omega
      have hsl : n <<< shift < 2 ^ 32 := by
        rw [Nat.shiftLeft_eq]
        calc n * 2 ^ shift < 2 ^ (7 * f + 4) * 2 ^ shift :=
              (Nat.mul_lt_mul_right (Nat.pos_pow_of_pos shift (by norm_num))).mpr hn'
          _ = 2 ^ (7 * f + 4 + shift) := by rw [← pow_add]
          _ ≤ 2 ^ 32 := Nat.pow_le_pow_right (by norm_num) (by omega)
      have hmask : n &&& 0x7F = n := by
        rw [and_127_eq_mod, Nat.mod_eq_of_lt hsmall]
      simp only [SrcReader.uint32Go, hget, hcond, Bool.false_eq_true, if_false, hmask,
        Nat.mod_eq_of_lt hsl, and_128_eq_zero hsmall, hvb]
      simp
    · have hvb : varintBytes n = (n % 128 + 128) :: varintBytes (n / 128) := by
        rw [varintBytes.eq_def]; simp [hsmall]
      rw [hvb, List.cons_append] at hdrop
      obtain ⟨hget, hnext, _⟩ := drop_cons_facts hdrop
      have hf1 : 1 ≤ f := by
        by_contra h0
        have hf : f = 0 := by omega
        subst hf
        norm_num at hn'
        omega
      have hmodlt : n % 128 < 128 := Nat.mod_lt n (by norm_num)
      have hf0 : (f == 0) = false := beq_eq_false_iff_ne.mpr (by omega)
      have hcond : (f == 0 && decide (0x0F < n % 128 + 128)) = false := by
        rw [hf0]; simp
      have hmask : (n % 128 + 128) &&& 0x7F = n % 128 := by
        rw [and_127_eq_mod, Nat.add_mod_right, Nat.mod_eq_of_lt hmodlt]
      have hhi : (n % 128 + 128) &&& 0x80 = 128 := and_128_of_ge (by omega) (by omega)
      have hsl : (n % 128) <<< shift < 2 ^ 32 := by
        rw [Nat.shiftLeft_eq]
        calc (n % 128) * 2 ^ shift < 128 * 2 ^ shift :=
              (Nat.mul_lt_mul_right (Nat.pos_pow_of_pos shift (by norm_num))).mpr hmodlt
          _ = 2 ^ (7 + shift) := by rw [show (128 : Nat) = 2 ^ 7 by norm_num, ← pow_add]
          _ ≤ 2 ^ 32 := Nat.pow_le_pow_right (by norm_num) (by omega)
      have hdivlt : n / 128 < 2 ^ (7 * (f - 1) + 4) := by
        rw [Nat.div_lt_iff_lt_mul (by norm_num : (0 : Nat) < 128)]
        calc n < 2 ^ (7 * f + 4) := hn'
          _ = 2 ^ (7 * (f - 1) + 4) * 128 := by
            rw [show (128 : Nat) = 2 ^ 7 by norm_num, ← pow_add]
            congr 1
            omega
      have hrec := ih (n / 128) (acc ||| (n % 128) <<< shift) (shift + 7) (pos + 1)
        buf rest hnext hf1 (by omega) hdivlt (by omega)
      simp only [SrcReader.uint32Go, hget, hcond, Bool.false_eq_true, if_false, hmask,
        Nat.mod_eq_of_lt hsl, hhi]
      norm_num
      rw [hrec, Nat.lor_assoc, varint_digit_lor, hvb]
      simp
      omega

/-- C1: for every 32-bit value `v`, encoding with `Writer::uint32`
(src/src/writer.rs) and decoding the resulting bytes (with arbitrary trailing
data) with `Reader::uint32` (src/src/reader.rs) yields exactly `v` and leaves
the cursor exactly past the encoded bytes. -/
theorem c1_uint32_roundtrip (v : Nat) (rest : List Nat) (hv : v < 2 ^ 32) :
    SrcReader.Reader.uint32 ⟨(SrcWriter.Writer.new.uint32 v).finish ++ rest, 0⟩ =
      (.ok v, ⟨(SrcWriter.Writer.new.uint32 v).finish ++ rest,
        ((SrcWriter.Writer.new.uint32 v).finish).length⟩) := by
  have henc : (SrcWriter.Writer.new.uint32 v).finish = varintBytes v := by
    simp [SrcWriter.Writer.new, SrcWriter.Writer.uint32, SrcWriter.Writer.finish,
      writeVarintLoop_eq]
  rw [henc]
  unfold SrcReader.Reader.uint32
  have h := uint32Go_varint 5 v 0 0 0 (varintBytes v ++ rest) rest (by simp)
    (by norm_num) (by norm_num) (by norm_num; exact hv) (by norm_num)
  rw [h]
  simp

/-- Witness for C1 at `v = 300` with one trailing byte. -/
theorem c1_uint32_roundtrip_witness :
    SrcReader.Reader.uint32 ⟨(SrcWriter.Writer.new.uint32 300).finish ++ [7], 0⟩ =
      (.ok 300, ⟨(SrcWriter.Writer.new.uint32 300).finish ++ [7],
        ((SrcWriter.Writer.new.uint32 300).finish).length⟩) :=
  c1_uint32_roundtrip 300 [7] (by norm_num)

/-- C2: `Reader::uint32` (src/src/reader.rs) on the five bytes
`FF FF FF FF FF` fails with the varint-overflow error (the 5th byte may only
carry its low 4 bits), and the standalone `decode_varint` (src/src/lib.rs) on
the single byte `80` fails with the incomplete-varint error (the buffer ends
with the continuation bit still set). -/
theorem c2_overflow_and_incomplete :
    (SrcReader.Reader.uint32 ⟨[0xFF, 0xFF, 0xFF, 0xFF, 0xFF], 0⟩).1 =
        .error .varintOverflow ∧
      SrcLib.decode_varint [0x80] = .error .incompleteVarint := by
  exact ⟨rfl, rfl⟩

namespace RustImpl

/-- Error values of src/rust/src/reader.rs (`napi::Error` with messages
"index out of range ..." and "invalid wire type ..."). -/
inductive Err where
  | indexOutOfRange
  | invalidWireType
deriving DecidableEq

/-- The `State` struct of src/rust/src/writer.rs: a saved buffer length and a
snapshot of the buffer. -/
structure State where
  len : Nat
  buf : List Nat
deriving DecidableEq

/-- `WriterImpl` of src/rust/src/writer.rs: the active buffer plus a stack of
saved states (`VecDeque` used via `push_back`/`pop_back`, i.e. LIFO; the list
head is the most recently pushed state). -/
structure WriterImpl where
  buf : List Nat
  states : List State
deriving DecidableEq

def WriterImpl.new : WriterImpl := ⟨[], []⟩

/-- `WriterImpl::write_varint32`: `while value >= 0x80` push low 7 bits with
the continuation bit, then push the final byte — byte-for-byte the shared
varint write loop. -/
def WriterImpl.write_varint32 (w : WriterImpl) (value : Nat) : WriterImpl :=
  ⟨w.buf ++ writeVarintLoop value, w.states⟩

/-- `WriterImpl::write_varint64`: same loop at 64 bits. -/
def WriterImpl.write_varint64 (w : WriterImpl) (value : Nat) : WriterImpl :=
  ⟨w.buf ++ writeVarintLoop value, w.states⟩

/-- Bit pattern of `((value << 1) ^ (value >> 63)) as u64` for an i64 with
bit pattern `n`: the left shift wraps modulo `2 ^ 64`, and the arithmetic
right shift by 63 is all-zeros for non-negative values (`n < 2 ^ 63`) and
all-ones otherwise. -/
def zigzagEncPat (n : Nat) : Nat :=
  2 * n % 2 ^ 64 ^^^ (if n < 2 ^ 63 then 0 else 2 ^ 64 - 1)

/-- `WriterImpl::write_sint64` (src/rust/src/writer.rs lines 48-51): ZigZag
encode, then varint encode. -/
def WriterImpl.write_sint64 (w : WriterImpl) (value : Int) : WriterImpl :=
  w.write_varint64 (zigzagEncPat (i64ToU64 value))

/-- `ReaderImpl` of src/rust/src/reader.rs. -/
structure ReaderImpl where
  buf : List Nat
  pos : Nat
deriving DecidableEq

/-- Loop of `ReaderImpl::read_varint64` (src/rust/src/reader.rs lines
69-94): at `shift == 63` only the low bit of the 10th byte is used and the
read returns immediately; otherwise accumulate 7 bits, stop on a byte below
`0x80`.  The `shift > 63` early return after the increment is unreachable
(shift goes 0,7,...,56,63) but is embedded as written.  Returns the value
and the final cursor. -/
def read_varint64Go (buf : List Nat) (pos value shift : Nat) :
    Except Err (Nat × Nat) :=
  match h : buf[pos]? with
  | none => .error .indexOutOfRange
  | some byte =>
    if shift == 63 then .ok (value ||| (byte &&& 0x01) <<< 63, pos + 1)
    else
      let value' := value ||| ((byte &&& 0x7F) <<< shift) % 2 ^ 64
      if decide (byte < 0x80) then .ok (value', pos + 1)
      else if decide (63 < shift + 7) then .ok (value', pos + 1)
      else read_varint64Go buf (pos + 1) value' (shift + 7)
termination_by buf.length - pos
decreasing_by
  have hlt : pos < buf.length := (List.getElem?_eq_some_iff.mp h).1
  omega

def ReaderImpl.read_varint64 (r : ReaderImpl) : Except Err (Nat × ReaderImpl) :=
  (read_varint64Go r.buf r.pos 0 0).map fun vp => (vp.1, { r with pos := vp.2 })

/-- Bit pattern of `((value >> 1) as i64) ^ (-((value & 1) as i64))` for a
u64 `value`: the negation's pattern is all-zeros when the low bit is clear
and all-ones when it is set. -/
def zigzagDecPat (u : Nat) : Nat :=
  u >>> 1 ^^^ (if u &&& 1 == 0 then 0 else 2 ^ 64 - 1)

/-- `ReaderImpl::read_sint64` (src/rust/src/reader.rs lines 103-106). -/
def ReaderImpl.read_sint64 (r : ReaderImpl) : Except Err (Int × ReaderImpl) :=
  r.read_varint64.map fun vr => (u64AsI64 (zigzagDecPat vr.1), vr.2)

end RustImpl

/-- ZigZag decode inverts ZigZag encode on every u64 bit pattern. -/
theorem zigzag64_roundtrip {n : Nat} (hn : n < 2 ^ 64) :
    RustImpl.zigzagDecPat (RustImpl.zigzagEncPat n) = n := by
  unfold RustImpl.zigzagEncPat RustImpl.zigzagDecPat
  by_cases h : n < 2 ^ 63
  · have h2 : 2 * n % 2 ^ 64 = 2 * n := Nat.mod_eq_of_lt (by omega)
    have hmod : (2 * n) &&& 1 = 0 := by
      rw [Nat.and_one_is_mod]; omega
    have hdiv : (2 * n) >>> 1 = n := by
      rw [Nat.shiftRight_eq_div_pow]
      norm_num
    rw [if_pos h, h2, Nat.xor_zero, hmod]
    rw [show ((0 : Nat) == 0) = true from rfl, if_pos rfl, Nat.xor_zero, hdiv]
  · have h2 : 2 * n % 2 ^ 64 = 2 * (n - 2 ^ 63) := by omega
    have h3 : 2 * (n - 2 ^ 63) < 2 ^ 64 := by omega
    rw [if_neg h, h2, xor_two_pow_sub_one h3]
    set u := 2 ^ 64 - 1 - 2 * (n - 2 ^ 63) with hu
    have humod : u &&& 1 = 1 := by
      rw [Nat.and_one_is_mod]
      omega
    have hudiv : u >>> 1 = 2 ^ 63 - 1 - (n - 2 ^ 63) := by
      rw [Nat.shiftRight_eq_div_pow]
      omega
    rw [humod, show ((1 : Nat) == 0) = false from rfl, if_neg (by simp), hudiv,
      xor_two_pow_sub_one (show 2 ^ 63 - 1 - (n - 2 ^ 63) < 2 ^ 64 by omega)]
    omega

/-- `read_varint64Go` decodes each canonical varint whose value fits the
remaining bit budget, with `shift = 7 * j`. -/
theorem read_varint64Go_varint (n : Nat) :
    ∀ (j acc pos : Nat) (buf rest : List Nat),
      buf.drop pos = varintBytes n ++ rest →
      j ≤ 9 →
      n < 2 ^ (64 - 7 * j) →
      RustImpl.read_varint64Go buf pos acc (7 * j) =
        .ok (acc ||| n <<< (7 * j), pos + (varintBytes n).length) := by
  induction n using Nat.strong_induction_on with
  | _ n ih =>
    intro j acc pos buf rest hdrop hj hn
    by_cases hj9 : j = 9
    · subst hj9
      have hn2 : n < 2 := by norm_num at hn; omega
      have hvb : varintBytes n = [n] := by
        rw [varintBytes.eq_def]; simp [show n < 128 by omega]
      rw [hvb] at hdrop
      obtain ⟨hget, _, _⟩ := drop_cons_facts hdrop
      rw [RustImpl.read_varint64Go, hget]
      have hand : n &&& 0x01 = n := by
        rw [Nat.and_one_is_mod]
        omega
      simp [hvb, hand]
    · have hj8 : j ≤ 8 := by omega
      have hne : ((7 : Nat) * j == 63) = false := beq_eq_false_iff_ne.mpr (by omega)
      by_cases hsmall : n < 128
      · have hvb : varintBytes n = [n] := by
          rw [varintBytes.eq_def]; simp [hsmall]
        rw [hvb] at hdrop
        obtain ⟨hget, _, _⟩ := drop_cons_facts hdrop
        rw [RustImpl.read_varint64Go, hget]
        have hmask : n &&& 0x7F = n := by
          rw [and_127_eq_mod, Nat.mod_eq_of_lt hsmall]
        have hsl : n <<< (7 * j) < 2 ^ 64 := by
          rw [Nat.shiftLeft_eq]
          calc n * 2 ^ (7 * j) < 2 ^ (64 - 7 * j) * 2 ^ (7 * j) :=
                (Nat.mul_lt_mul_right (Nat.pos_pow_of_pos _ (by norm_num))).mpr hn
            _ = 2 ^ (64 - 7 * j + 7 * j) := by rw [← pow_add]
            _ ≤ 2 ^ 64 := Nat.pow_le_pow_right (by norm_num) (by omega)
        have hsl' := Nat.mod_eq_of_lt hsl
        simp only [hne, Bool.false_eq_true, if_false, hmask, hsl', decide_eq_true_eq]
        rw [if_pos hsmall, hvb]
        simp
      · have hvb : varintBytes n = (n % 128 + 128) :: varintBytes (n / 128) := by
          rw [varintBytes.eq_def]; simp [hsmall]
        rw [hvb, List.cons_append] at hdrop
        obtain ⟨hget, hnext, _⟩ := drop_cons_facts hdrop
        rw [RustImpl.read_varint64Go, hget]
        have hmodlt : n % 128 < 128 := Nat.mod_lt n (by norm_num)
        have hmask : (n % 128 + 128) &&& 0x7F = n % 128 := by
          rw [and_127_eq_mod, Nat.add_mod_right, Nat.mod_eq_of_lt hmodlt]
        have hsl : (n % 128) <<< (7 * j) < 2 ^ 64 := by
          rw [Nat.shiftLeft_eq]
          calc (n % 128) * 2 ^ (7 * j) < 128 * 2 ^ (7 * j) :=
                (Nat.mul_lt_mul_right (Nat.pos_pow_of_pos _ (by norm_num))).mpr hmodlt
            _ = 2 ^ (7 + 7 * j) := by
                rw [show (128 : Nat) = 2 ^ 7 by norm_num, ← pow_add]
            _ ≤ 2 ^ 64 := Nat.pow_le_pow_right (by norm_num) (by omega)
        have hbudget : 8 ≤ 64 - 7 * j := by
          -- n ≥ 128 needs at least 8 bits of budget
          by_contra hb
          have : n < 128 := by
            calc n < 2 ^ (64 - 7 * j) := hn
              _ ≤ 2 ^ 7 := Nat.pow_le_pow_right (by norm_num) (by omega)
              _ = 128 := by norm_num
          omega
        have hdivlt : n / 128 < 2 ^ (64 - 7 * (j + 1)) := by
          rw [Nat.div_lt_iff_lt_mul (by norm_num : (0 : Nat) < 128)]
          calc n < 2 ^ (64 - 7 * j) := hn
            _ = 2 ^ (64 - 7 * (j + 1)) * 128 := by
              rw [show (128 : Nat) = 2 ^ 7 by norm_num, ← pow_add]
              congr 1
              omega
        have hrec := ih (n / 128) (Nat.div_lt_self (by omega) (by norm_num))
          (j + 1) (acc ||| (n % 128) <<< (7 * j)) (pos + 1) buf rest hnext
          (by omega) hdivlt
        have hstep : 7 * j + 7 = 7 * (j + 1) := by omega
        have hcont : ¬ (n % 128 + 128 < 0x80) := by omega
        have hdead : ¬ (63 < 7 * j + 7) := by omega
        have hsl' := Nat.mod_eq_of_lt hsl
        simp only [hne, Bool.false_eq_true, if_false, hmask, hsl', decide_eq_true_eq]
        rw [if_neg hcont, if_neg hdead, hstep, hrec, Nat.lor_assoc, ← hstep,
          varint_digit_lor, hvb]
        simp
        omega

/-- `u64 -> i64 -> u64` reinterpretation round-trips on the i64 range. -/
theorem u64AsI64_i64ToU64 {v : Int} (hlo : -(2 ^ 63) ≤ v) (hhi : v < 2 ^ 63) :
    u64AsI64 (i64ToU64 v) = v := by
  unfold u64AsI64 i64ToU64
  by_cases h : 0 ≤ v
  · have h1 : v % (2 ^ 64 : Int) = v := by omega
    rw [h1]
    have h2 : v.toNat < 2 ^ 63 := by omega
    simp [h2]
    omega
  · have h1 : v % (2 ^ 64 : Int) = v + 2 ^ 64 := by omega
    rw [h1]
    have h2 : ¬ ((v + 2 ^ 64).toNat < 2 ^ 63) := by omega
    simp [h2]
    omega

/-- C3: for every 64-bit signed integer `v`, `WriterImpl::write_sint64`
(src/rust/src/writer.rs, ZigZag then varint) followed by
`ReaderImpl::read_sint64` (src/rust/src/reader.rs, varint then ZigZag) over
the written bytes (with arbitrary trailing data) returns exactly `v`,
leaving the cursor exactly past the encoded bytes. -/
theorem c3_sint64_roundtrip (v : Int) (rest : List Nat)
    (hlo : -(2 ^ 63) ≤ v) (hhi : v < 2 ^ 63) :
    RustImpl.ReaderImpl.read_sint64
        ⟨(RustImpl.WriterImpl.new.write_sint64 v).buf ++ rest, 0⟩ =
      .ok (v, ⟨(RustImpl.WriterImpl.new.write_sint64 v).buf ++ rest,
        ((RustImpl.WriterImpl.new.write_sint64 v).buf).length⟩) := by
  have hpat : i64ToU64 v < 2 ^ 64 := by
    unfold i64ToU64
    omega
  have henc : RustImpl.zigzagEncPat (i64ToU64 v) < 2 ^ 64 := by
    unfold RustImpl.zigzagEncPat
    by_cases h : i64ToU64 v < 2 ^ 63
    · rw [if_pos h, Nat.xor_zero]
      exact Nat.mod_lt _ (by norm_num)
    · rw [if_neg h]
      exact Nat.xor_lt_two_pow (Nat.mod_lt _ (by norm_num)) (by norm_num)
  have hbuf : (RustImpl.WriterImpl.new.write_sint64 v).buf =
      varintBytes (RustImpl.zigzagEncPat (i64ToU64 v)) := by
    simp [RustImpl.WriterImpl.new, RustImpl.WriterImpl.write_sint64,
      RustImpl.WriterImpl.write_varint64, writeVarintLoop_eq]
  rw [hbuf]
  have hdec := read_varint64Go_varint (RustImpl.zigzagEncPat (i64ToU64 v)) 0 0 0
    (varintBytes (RustImpl.zigzagEncPat (i64ToU64 v)) ++ rest) rest
    (by simp) (by norm_num) (by norm_num; exact henc)
  unfold RustImpl.ReaderImpl.read_sint64 RustImpl.ReaderImpl.read_varint64
  norm_num at hdec
  rw [hdec]
  simp [Except.map, zigzag64_roundtrip hpat, u64AsI64_i64ToU64 hlo hhi]

/-- Witness for C3 at `v = -12345` with one trailing byte. -/
theorem c3_sint64_roundtrip_witness :
    RustImpl.ReaderImpl.read_sint64
        ⟨(RustImpl.WriterImpl.new.write_sint64 (-12345)).buf ++ [9], 0⟩ =
      .ok (-12345, ⟨(RustImpl.WriterImpl.new.write_sint64 (-12345)).buf ++ [9],
        ((RustImpl.WriterImpl.new.write_sint64 (-12345)).buf).length⟩) :=
  c3_sint64_roundtrip (-12345) [9] (by norm_num) (by norm_num)

/-- The validation predicate of `encode_field_tag` (src/src/lib.rs lines
136-139), stated positively. -/
def TagValid (field_number wire_type : Int) : Prop :=
  1 ≤ field_number ∧ field_number ≤ 536870911 ∧
    ¬ (19000 ≤ field_number ∧ field_number ≤ 19999) ∧
    0 ≤ wire_type ∧ wire_type ≤ 5

instance (fn wt : Int) : Decidable (TagValid fn wt) := by
  unfold TagValid
  infer_instance

/-- C4: `encode_field_tag` succeeds and emits the varint of
`(field_number << 3) | wire_type` (equal to `8 * field_number + wire_type`
on the validated range) exactly when `1 ≤ field_number ≤ 2^29 - 1`,
`field_number` is outside the reserved range `[19000, 19999]`, and
`0 ≤ wire_type ≤ 5`; it fails with the invalid-tag error otherwise.
In particular `decode_field_tag` of `encode_field_tag 1 2` gives `[1, 2]`,
and `encode_field_tag 19500 0` fails. -/
theorem c4_encode_tag :
    (∀ field_number wire_type : Int, TagValid field_number wire_type →
        SrcLib.encode_field_tag field_number wire_type =
          .ok (SrcLib.encode_varint (8 * field_number + wire_type))) ∧
      (∀ field_number wire_type : Int, ¬ TagValid field_number wire_type →
        SrcLib.encode_field_tag field_number wire_type = .error .invalidTag) ∧
      (SrcLib.encode_field_tag 1 2).bind SrcLib.decode_field_tag = .ok [1, 2] ∧
      SrcLib.encode_field_tag 19500 0 = .error .invalidTag := by
  refine ⟨?_, ?_, ?_, by decide⟩
  · intro fn wt h
    have hcond : ¬ (¬ (1 ≤ fn ∧ fn ≤ 536870911) ∨ (19000 ≤ fn ∧ fn ≤ 19999)
        ∨ ¬ (0 ≤ wt ∧ wt ≤ 5)) := by
      unfold TagValid at h
      omega
    unfold SrcLib.encode_field_tag
    rw [if_neg hcond]
  · intro fn wt h
    have hcond : ¬ (1 ≤ fn ∧ fn ≤ 536870911) ∨ (19000 ≤ fn ∧ fn ≤ 19999)
        ∨ ¬ (0 ≤ wt ∧ wt ≤ 5) := by
      unfold TagValid at h
      omega
    unfold SrcLib.encode_field_tag
    rw [if_pos hcond]
  · have he : SrcLib.encode_field_tag 1 2 = .ok [10] := by
      have h10 : SrcLib.encode_varint (8 * 1 + 2) = [10] := by
        unfold SrcLib.encode_varint i64ToU64
        norm_num
        exact writeVarintLoop_small (by norm_num)
      unfold SrcLib.encode_field_tag
      rw [if_neg (by norm_num), h10]
    rw [he]
    decide

/-- Witness for C4: the valid branch at `(1, 2)` and the invalid branch at
`(19500, 0)`. -/
theorem c4_encode_tag_witness :
    SrcLib.encode_field_tag 1 2 = .ok (SrcLib.encode_varint (8 * 1 + 2)) ∧
      SrcLib.encode_field_tag 19500 0 = .error .invalidTag :=
  ⟨c4_encode_tag.1 1 2 (by decide), c4_encode_tag.2.1 19500 0 (by decide)⟩

/-- C5 counterexample: on the buffer `[0x01, 0xFF]` (length prefix 1, then
the invalid UTF-8 byte `FF`), `Reader::string` does fail with the
invalid-UTF-8 error and produces no string, but it leaves the cursor at 2 —
past the length prefix and the payload — not unchanged at 0 as the claim
states: `self.pos += len` runs before the UTF-8 validation. -/
theorem c5_counterexample :
    SrcReader.Reader.string ⟨[0x01, 0xFF], 0⟩ =
        (.error .invalidUtf8, ⟨[0x01, 0xFF], 2⟩) ∧ (2 : Nat) ≠ 0 :=
  ⟨by decide, by decide⟩

/-- C5 amended: `Reader::string` reads a varint length `n` and validates the
next `n` bytes as UTF-8; on an invalid payload it fails with the
invalid-UTF-8 error and no partial string is produced, but the reader's
position is advanced past the length prefix and the `n` payload bytes
(to `p1 + n`), not left unchanged. -/
theorem c5_amended (buf : List Nat) (pos n p1 : Nat)
    (hu : SrcReader.Reader.uint32 ⟨buf, pos⟩ = (.ok n, ⟨buf, p1⟩))
    (hb : p1 + n ≤ buf.length)
    (hutf : utf8Valid ((buf.drop p1).take n) = false) :
    SrcReader.Reader.string ⟨buf, pos⟩ = (.error .invalidUtf8, ⟨buf, p1 + n⟩) := by
  unfold SrcReader.Reader.string
  rw [hu]
  have hnb : ¬ (buf.length < p1 + n) := by omega
  simp [hnb, hutf]

/-- Witness for the amended C5 on the buffer `[0x01, 0xFF]`. -/
theorem c5_amended_witness :
    SrcReader.Reader.string ⟨[0x01, 0xFF], 0⟩ =
      (.error .invalidUtf8, ⟨[0x01, 0xFF], 1 + 1⟩) :=
  c5_amended [0x01, 0xFF] 0 1 1 (by decide) (by decide) (by decide)

namespace SrcRustWriter

/-- Error values of src/src/rust/writer.rs `ldelim` ("No fork to delimit",
"Length too large"). -/
inductive Err where
  | noOpenFork
  | lengthTooLarge
deriving DecidableEq

/-- The `Writer` of src/src/rust/writer.rs: buffer plus a stack of fork
positions (list head = most recently pushed). -/
structure Writer where
  buffer : List Nat
  stack : List Nat
deriving DecidableEq

def Writer.new : Writer := ⟨[], []⟩

/-- Net effect on the buffer of the write calls issued between `fork` and
`ldelim`: every write method of this `Writer` only appends bytes. -/
def Writer.appendRaw (w : Writer) (p : List Nat) : Writer :=
  ⟨w.buffer ++ p, w.stack⟩

/-- `Writer::fork` (src/src/rust/writer.rs lines 188-194): push the current
position and reserve 5 zero bytes for the length varint; returns the mark. -/
def Writer.fork (w : Writer) : Nat × Writer :=
  (w.buffer.length, ⟨w.buffer ++ List.replicate 5 0, w.buffer.length :: w.stack⟩)

/-- `Writer::ldelim` (src/src/rust/writer.rs lines 198-238): pop the most
recent fork position, compute the section length (excluding the 5 reserved
bytes), varint-encode it, and rebuild the buffer as
`prefix ++ length bytes ++ section data`. -/
def Writer.ldelim (w : Writer) : Except Err Writer :=
  match w.stack with
  | [] => .error .noOpenFork
  | forkPos :: stackRest =>
    let currentPos := w.buffer.length
    let length := currentPos - forkPos - 5
    let lengthBytes := writeVarintLoop length
    if 5 < lengthBytes.length then .error .lengthTooLarge
    else
      let data := (w.buffer.drop (forkPos + 5)).take (currentPos - (forkPos + 5))
      .ok ⟨w.buffer.take forkPos ++ lengthBytes ++ data, stackRest⟩

def Writer.finish (w : Writer) : List Nat := w.buffer

end SrcRustWriter

namespace RustImpl

/-- `WriterImpl::fork` (src/rust/src/writer.rs lines 78-85): snapshot the
buffer onto the state stack and clear it. -/
def WriterImpl.fork (w : WriterImpl) : WriterImpl :=
  ⟨[], ⟨w.buf.length, w.buf⟩ :: w.states⟩

/-- `WriterImpl::reset` (src/rust/src/writer.rs lines 87-93): restore the most
recent snapshot, or clear the buffer when no snapshot exists. -/
def WriterImpl.reset (w : WriterImpl) : WriterImpl :=
  match w.states with
  | s :: rest => ⟨s.buf, rest⟩
  | [] => ⟨[], []⟩

/-- `WriterImpl::ldelim` (src/rust/src/writer.rs lines 95-109): take the
current buffer as the section, restore the parent buffer, append the varint
of the section length (as u32) and then the section bytes.  Note: this
function has no failure path at all. -/
def WriterImpl.ldelim (w : WriterImpl) : WriterImpl :=
  let forkLen := w.buf.length
  let forkData := w.buf
  let w1 := w.reset
  let w2 := w1.write_varint32 (forkLen % 2 ^ 32)
  if 0 < forkLen then ⟨w2.buf ++ forkData, w2.states⟩ else w2

def WriterImpl.finish (w : WriterImpl) : List Nat := w.buf

end RustImpl

/-- A varint of a value below `2 ^ (7 k)` takes at most `k` bytes. -/
theorem varintBytes_length_le :
    ∀ (k n : Nat), 1 ≤ k → n < 2 ^ (7 * k) → (varintBytes n).length ≤ k := by
  intro k
  induction k with
  | zero => intro n h; omega
  | succ k ih =>
    intro n _ hn
    rw [varintBytes.eq_def]
    by_cases h : n < 128
    · simp [h]
    · simp only [h, if_false, List.length_cons]
      have hk : 1 ≤ k := by
        by_contra hk0
        have hk' : k = 0 := by omega
        subst hk'
        norm_num at hn
        omega
      have hdiv : n / 128 < 2 ^ (7 * k) := by
        rw [Nat.div_lt_iff_lt_mul (by norm_num : (0 : Nat) < 128)]
        calc n < 2 ^ (7 * (k + 1)) := hn
          _ = 2 ^ (7 * k) * 128 := by
            rw [show (128 : Nat) = 2 ^ 7 by norm_num, ← pow_add,
              show 7 * k + 7 = 7 * (k + 1) by omega]
      have := ih (n / 128) hk hdiv
      omega

/-- Splice shape of `Writer::ldelim` in src/src/rust/writer.rs: for any parent
buffer `B`, any remaining stack, and any payload `p` written since the fork,
committing rewrites the buffer to `B ++ varint (p.length) ++ p`. -/
theorem srcrust_ldelim_splice (B p st : List Nat) (hp : p.length < 2 ^ (7 * 5)) :
    SrcRustWriter.Writer.ldelim ⟨(B ++ List.replicate 5 0) ++ p, B.length :: st⟩ =
      .ok ⟨B ++ varintBytes p.length ++ p, st⟩ := by
  unfold SrcRustWriter.Writer.ldelim
  have hlen : ((B ++ List.replicate 5 0) ++ p).length - B.length - 5 = p.length := by
    simp only [List.length_append, List.length_replicate]
    omega
  have hle : ¬ (5 < (writeVarintLoop (((B ++ List.replicate 5 0) ++ p).length
      - B.length - 5)).length) := by
    rw [hlen, writeVarintLoop_eq]
    have := varintBytes_length_le 5 p.length (by norm_num) hp
    omega
  simp only [hle, if_false]
  have hdrop : ((B ++ List.replicate 5 0) ++ p).drop (B.length + 5) = p := by
    have h5 : (B ++ List.replicate 5 0).length = B.length + 5 := by simp
    rw [List.drop_left' h5]
  have htakeB : ((B ++ List.replicate 5 0) ++ p).take B.length = B := by
    rw [List.append_assoc, List.take_left]
  have hcount : ((B ++ List.replicate 5 0) ++ p).length - (B.length + 5) = p.length := by
    simp only [List.length_append, List.length_replicate]
    omega
  rw [hlen, writeVarintLoop_eq, hdrop, htakeB, hcount, List.take_length]

/-- Splice shape of `Writer::ldelim` in src/src/writer.rs (placeholder byte
plus `copy_within`): same net result as the 5-byte-reserve variant. -/
theorem srcwriter_ldelim_splice (B p : List Nat) (hp : p.length < 2 ^ 32) :
    SrcWriter.Writer.ldelim ⟨(B ++ [0]) ++ p⟩ B.length =
      ⟨B ++ varintBytes p.length ++ p⟩ := by
  have hmsg : (((B ++ [0]) ++ p).length - B.length - 1) % 2 ^ 32 = p.length := by
    simp only [List.length_append, List.length_cons, List.length_nil]
    omega
  have htakeB : ((B ++ [0]) ++ p).take B.length = B := by
    rw [List.append_assoc, List.take_left]
  have hdropB1 : ((B ++ [0]) ++ p).drop (B.length + 1) = p := by
    rw [List.drop_left' (by simp)]
  by_cases hsm : p.length < 128
  · have hL : varintBytes p.length = [p.length] := varintBytes_small hsm
    unfold SrcWriter.Writer.ldelim
    simp only [hmsg, writeVarintLoop_eq, hL, List.length_cons, List.length_nil]
    rw [if_neg (by omega)]
    unfold SrcWriter.writeAt
    simp only [hL, List.length_cons, List.length_nil, Nat.zero_add, htakeB, hdropB1]
  · have hL5 : (varintBytes p.length).length ≤ 5 :=
      varintBytes_length_le 5 p.length (by norm_num) (by norm_num at hp ⊢; omega)
    have hL2 : 2 ≤ (varintBytes p.length).length := by
      rw [varintBytes.eq_def]
      simp only [hsm, if_false, List.length_cons]
      have := varintBytes_length_pos (p.length / 128)
      omega
    set L := (varintBytes p.length).length with hLdef
    have hLp : L - 1 ≤ p.length := by omega
    set l := ((B ++ [0]) ++ p) ++ List.replicate (L - 1) 0 with hl
    have htake1 : l.take (B.length + L) = (B ++ [0]) ++ p.take (L - 1) := by
      rw [hl, List.take_append_eq_append_take, List.take_append_eq_append_take]
      rw [List.take_of_length_le (l := B ++ [0]) (by simp; omega)]
      have c1 : B.length + L - (B ++ [0]).length = L - 1 := by
        simp only [List.length_append, List.length_cons, List.length_nil]
        omega
      have c2 : B.length + L - ((B ++ [0]) ++ p).length = 0 := by
        simp only [List.length_append, List.length_cons, List.length_nil]
        omega
      rw [c1, c2, List.take_zero, List.append_nil]
    have hmid : (l.drop (B.length + 1)).take (((B ++ [0]) ++ p).length
        - (B.length + 1)) = p := by
      rw [hl, List.drop_append_eq_append_drop, hdropB1]
      have h0 : B.length + 1 - ((B ++ [0]) ++ p).length = 0 := by
        simp only [List.length_append, List.length_cons, List.length_nil]
        omega
      have hc : ((B ++ [0]) ++ p).length - (B.length + 1) = p.length := by
        simp only [List.length_append, List.length_cons, List.length_nil]
        omega
      rw [h0, List.drop_zero, hc, List.take_append_eq_append_take, List.take_length]
      simp
    have hlast : l.drop (B.length + L + (((B ++ [0]) ++ p).length
        - (B.length + 1))) = [] := by
      apply List.drop_eq_nil_of_le
      rw [hl]
      simp only [List.length_append, List.length_cons, List.length_nil,
        List.length_replicate]
      omega
    have hbuf1 : SrcWriter.copyWithin l (B.length + 1) ((B ++ [0]) ++ p).length
        (B.length + L) = ((B ++ [0]) ++ p.take (L - 1)) ++ p := by
      unfold SrcWriter.copyWithin
      rw [htake1, hmid, hlast, List.append_nil]
    have htakeB2 : (((B ++ [0]) ++ p.take (L - 1)) ++ p).take B.length = B := by
      rw [List.append_assoc, List.append_assoc, List.take_left]
    have hdropL : (((B ++ [0]) ++ p.take (L - 1)) ++ p).drop (B.length + L) = p := by
      rw [List.drop_left' (by
        simp only [List.length_append, List.length_cons, List.length_nil,
          List.length_take]
        omega)]
    unfold SrcWriter.Writer.ldelim
    simp only [hmsg, writeVarintLoop_eq, ← hLdef, ← hl]
    rw [if_pos (by omega : 1 < L), hbuf1]
    unfold SrcWriter.writeAt
    simp only [← hLdef, htakeB2, hdropL]

/-- C6: starting from an empty writer, fork / write three payload bytes /
commit / finish yields `[0x03, b0, b1, b2]` — shown for both fork/commit
implementations (src/src/writer.rs with its placeholder byte and `ldelim
(fork_pos)`, and src/src/rust/writer.rs with its 5-byte reserve and fork
stack).  In general, committing splices exactly the varint of the byte count
of the payload written since the matching fork — whatever those bytes are,
including an inner section's already-spliced length prefix and payload —
immediately before that payload (parts 3 and 4); the nested two-level run in
part 5 yields `[0x04, b0, 0x02, b1, b2]`, each prefix counting only its own
section. -/
theorem c6_fork_commit :
    (∀ b0 b1 b2 : Nat,
        (SrcWriter.Writer.ldelim
            ((SrcWriter.Writer.new.fork.2).appendRaw [b0, b1, b2])
            SrcWriter.Writer.new.fork.1).finish = [3, b0, b1, b2]) ∧
      (∀ b0 b1 b2 : Nat,
        (((SrcRustWriter.Writer.new.fork.2).appendRaw [b0, b1, b2]).ldelim).map
            SrcRustWriter.Writer.finish = .ok [3, b0, b1, b2]) ∧
      (∀ B p st : List Nat, p.length < 2 ^ 35 →
        ((SrcRustWriter.Writer.fork ⟨B, st⟩).2.appendRaw p).ldelim =
          .ok ⟨B ++ varintBytes p.length ++ p, st⟩) ∧
      (∀ B p : List Nat, p.length < 2 ^ 32 →
        SrcWriter.Writer.ldelim ((SrcWriter.Writer.fork ⟨B⟩).2.appendRaw p)
            (SrcWriter.Writer.fork ⟨B⟩).1 =
          ⟨B ++ varintBytes p.length ++ p⟩) ∧
      (∀ b0 b1 b2 : Nat,
        ((((SrcRustWriter.Writer.new.fork.2.appendRaw [b0]).fork.2.appendRaw
              [b1, b2]).ldelim).bind SrcRustWriter.Writer.ldelim).map
            SrcRustWriter.Writer.finish = .ok [4, b0, 2, b1, b2]) := by
  have hsmall2 : ∀ (B q st : List Nat), q.length < 128 →
      ((SrcRustWriter.Writer.fork ⟨B, st⟩).2.appendRaw q).ldelim =
        .ok ⟨B ++ q.length :: q, st⟩ := by
    intro B q st hq
    have h := srcrust_ldelim_splice B q st (lt_of_lt_of_le hq (by norm_num))
    rw [varintBytes_small hq] at h
    simpa [SrcRustWriter.Writer.fork, SrcRustWriter.Writer.appendRaw] using h
  have hsmall1 : ∀ (B q : List Nat), q.length < 128 →
      SrcWriter.Writer.ldelim ((SrcWriter.Writer.fork ⟨B⟩).2.appendRaw q)
          (SrcWriter.Writer.fork ⟨B⟩).1 = ⟨B ++ q.length :: q⟩ := by
    intro B q hq
    have h := srcwriter_ldelim_splice B q (lt_of_lt_of_le hq (by norm_num))
    rw [varintBytes_small hq] at h
    simpa [SrcWriter.Writer.fork, SrcWriter.Writer.appendRaw] using h
  refine ⟨?_, ?_, ?_, ?_, ?_⟩
  · intro b0 b1 b2
    show (SrcWriter.Writer.ldelim ((SrcWriter.Writer.fork ⟨[]⟩).2.appendRaw
        [b0, b1, b2]) (SrcWriter.Writer.fork ⟨[]⟩).1).finish = [3, b0, b1, b2]
    rw [hsmall1 [] [b0, b1, b2] (by norm_num)]
    rfl
  · intro b0 b1 b2
    show (((SrcRustWriter.Writer.fork ⟨[], []⟩).2.appendRaw
        [b0, b1, b2]).ldelim).map SrcRustWriter.Writer.finish = .ok [3, b0, b1, b2]
    rw [hsmall2 [] [b0, b1, b2] [] (by norm_num)]
    rfl
  · intro B p st hp
    exact srcrust_ldelim_splice B p st hp
  · intro B p hp
    exact srcwriter_ldelim_splice B p hp
  · intro b0 b1 b2
    show ((((SrcRustWriter.Writer.fork ⟨[0, 0, 0, 0, 0, b0], [0]⟩).2.appendRaw
        [b1, b2]).ldelim).bind SrcRustWriter.Writer.ldelim).map
        SrcRustWriter.Writer.finish = .ok [4, b0, 2, b1, b2]
    rw [hsmall2 [0, 0, 0, 0, 0, b0] [b1, b2] [0] (by norm_num)]
    show (SrcRustWriter.Writer.ldelim ((SrcRustWriter.Writer.fork
        ⟨[], []⟩).2.appendRaw [b0, 2, b1, b2])).map SrcRustWriter.Writer.finish =
        .ok [4, b0, 2, b1, b2]
    rw [hsmall2 [] [b0, 2, b1, b2] [] (by norm_num)]
    rfl

/-- Witness for C6 (parts with hypotheses) at `B = [9]`, `p = [1, 2]`,
`st = [7]`. -/
theorem c6_fork_commit_witness :
    ((SrcRustWriter.Writer.fork ⟨[9], [7]⟩).2.appendRaw [1, 2]).ldelim =
        .ok ⟨[9] ++ varintBytes ([1, 2] : List Nat).length ++ [1, 2], [7]⟩ ∧
      SrcWriter.Writer.ldelim ((SrcWriter.Writer.fork ⟨[9]⟩).2.appendRaw [1, 2])
          (SrcWriter.Writer.fork ⟨[9]⟩).1 =
        ⟨[9] ++ varintBytes ([1, 2] : List Nat).length ++ [1, 2]⟩ :=
  ⟨c6_fork_commit.2.2.1 [9] [1, 2] [7] (by norm_num),
   c6_fork_commit.2.2.2.1 [9] [1, 2] (by norm_num)⟩

/-- C7 counterexample: `WriterImpl::ldelim` (src/rust/src/writer.rs) called
with an empty fork-frame stack does not fail with NoOpenFork — it has no
failure path at all.  On the state with buffer `[1]` and no saved frames it
treats the whole buffer as a section and succeeds, producing `[1, 1]`. -/
theorem c7_counterexample :
    RustImpl.WriterImpl.ldelim ⟨[1], []⟩ = ⟨[1, 1], []⟩ := by
  unfold RustImpl.WriterImpl.ldelim RustImpl.WriterImpl.reset
    RustImpl.WriterImpl.write_varint32
  norm_num
  rw [writeVarintLoop_small (by norm_num)]
  rfl

/-- C7 amended: the stack-based `Writer::ldelim` (src/src/rust/writer.rs)
fails with NoOpenFork exactly when its fork stack is empty; but
`WriterImpl::ldelim` (src/rust/src/writer.rs) never fails — with no open
fork it prepends the length varint of the entire buffer (as u32) to the
buffer contents. -/
theorem c7_amended :
    (∀ w : SrcRustWriter.Writer,
        w.ldelim = .error .noOpenFork ↔ w.stack = []) ∧
      (∀ w : RustImpl.WriterImpl, w.states = [] →
        w.ldelim = ⟨writeVarintLoop (w.buf.length % 2 ^ 32) ++ w.buf, []⟩) := by
  constructor
  · intro w
    unfold SrcRustWriter.Writer.ldelim
    match hst : w.stack with
    | [] => simp
    | forkPos :: rest =>
      simp only
      constructor
      · intro h
        split at h <;> simp at h
      · intro h
        cases h
  · intro w hst
    unfold RustImpl.WriterImpl.ldelim RustImpl.WriterImpl.reset
      RustImpl.WriterImpl.write_varint32
    rw [hst]
    by_cases hb : 0 < w.buf.length
    · simp [hb]
    · have hbe : w.buf = [] := by
        cases hw : w.buf
        · rfl
        · rw [hw] at hb; simp at hb
      simp [hb, hbe]

/-- Witness for the amended C7: the empty-stack error case of the stack
writer and the no-fork splice of `WriterImpl`. -/
theorem c7_amended_witness :
    (SrcRustWriter.Writer.ldelim ⟨[5], []⟩ = .error .noOpenFork) ∧
      RustImpl.WriterImpl.ldelim ⟨[1], []⟩ =
        ⟨writeVarintLoop (([1] : List Nat).length % 2 ^ 32) ++ [1], []⟩ :=
  ⟨(c7_amended.1 ⟨[5], []⟩).mpr rfl, c7_amended.2 ⟨[1], []⟩ rfl⟩

namespace Pool

/-- `PoolMetrics` of src/src/pool.rs. -/
structure PoolMetrics where
  hits : Nat
  misses : Nat
  total_acquired : Nat
  current_pooled : Nat
deriving DecidableEq

/-- A checked-out `PooledBuffer` together with its size class (the
`BufferPoolRef` it holds points at that class's free list). -/
structure Handle where
  cls : Nat
  buffer : List Nat
deriving DecidableEq

/-- `BufferPool` of src/src/pool.rs: ten per-class free lists (each a stack
of buffers; the list head is the `Vec`'s push/pop end), the per-class
capacity, and the shared metrics. -/
structure BufferPool where
  pools : List (List (List Nat))
  max_pool_size : Nat
  metrics : PoolMetrics
deriving DecidableEq

/-- `BufferPool::new`. -/
def BufferPool.new (max_pool_size : Nat) : BufferPool :=
  ⟨List.replicate 10 [], max_pool_size, ⟨0, 0, 0, 0⟩⟩

/-- `usize::next_power_of_two` restricted to the exponent search: smallest
`2 ^ j ≥ n` with `j ≤ fuel` (callers pass `fuel := n`, which is always
enough since `n ≤ 2 ^ n`). -/
def np2go (n : Nat) : Nat → Nat
  | 0 => 1
  | k + 1 => if n ≤ 2 ^ k then np2go n k else 2 ^ (k + 1)

/-- Rust's `usize::next_power_of_two`: 0 and 1 map to 1, otherwise the
smallest power of two `≥ n`. -/
def nextPow2 (n : Nat) : Nat := if n ≤ 1 then 1 else np2go n n

/-- Fuelled trailing-zeros count (`u32::trailing_zeros`); callers pass
`fuel := m`, enough for every nonzero `m` (the source never calls it on 0:
`next_power_of_two` returns at least 1). -/
def tzGo : Nat → Nat → Nat
  | _, 0 => 0
  | m, k + 1 => if m % 2 = 0 ∧ m ≠ 0 then tzGo (m / 2) k + 1 else 0

def trailingZeros (m : Nat) : Nat := tzGo m m

/-- `BufferPool::size_class` (src/src/pool.rs lines 92-101):
`bits = (size - 1).next_power_of_two().trailing_zeros()`, then
`bits.saturating_sub(6)` capped at 9 (`Nat` subtraction saturates). -/
def size_class (size : Nat) : Nat :=
  if size = 0 then 0
  else min (trailingZeros (nextPow2 (size - 1)) - 6) 9

/-- `BufferPool::class_to_size`: `64 << class.min(9)`. -/
def class_to_size (c : Nat) : Nat := 64 <<< min c 9

/-- `BufferPool::acquire` (src/src/pool.rs lines 48-84): bump
`total_acquired`; pop from the matching class's free list on a hit
(`hits += 1`, `current_pooled -= 1`), otherwise allocate a zero-filled
buffer of the class size (`misses += 1`).  Returns the new pool state and
the checked-out handle. -/
def BufferPool.acquire (s : BufferPool) (min_size : Nat) : BufferPool × Handle :=
  let c := size_class min_size
  let actual := class_to_size c
  match s.pools[c]? with
  | some (b :: rest) =>
    ({ s with
        pools := s.pools.set c rest,
        metrics := { s.metrics with
          total_acquired := s.metrics.total_acquired + 1,
          hits := s.metrics.hits + 1,
          current_pooled := s.metrics.current_pooled - 1 } },
      ⟨c, b⟩)
  | _ =>
    ({ s with
        metrics := { s.metrics with
          total_acquired := s.metrics.total_acquired + 1,
          misses := s.metrics.misses + 1 } },
      ⟨c, List.replicate actual 0⟩)

/-- `impl Drop for PooledBuffer` (src/src/pool.rs lines 143-157): if the
handle's class list holds fewer than `max_pool_size` buffers, clear the
buffer and push it back (`current_pooled += 1`); otherwise discard it. -/
def BufferPool.release (s : BufferPool) (h : Handle) : BufferPool :=
  match s.pools[h.cls]? with
  | some l =>
    if l.length < s.max_pool_size then
      { s with
          pools := s.pools.set h.cls ([] :: l),
          metrics := { s.metrics with
            current_pooled := s.metrics.current_pooled + 1 } }
    else s
  | none => s

/-- Pool states reachable from `BufferPool::new` by any interleaving of
acquires and releases (a released handle's class is always one of the ten
classes, since handles only come from `acquire`). -/
inductive Reach : BufferPool → Prop where
  | init (m : Nat) : Reach (BufferPool.new m)
  | acquire (s : BufferPool) (n : Nat) : Reach s → Reach (s.acquire n).1
  | release (s : BufferPool) (c : Nat) (b : List Nat) :
      Reach s → c < 10 → Reach (s.release ⟨c, b⟩)

/-- Total number of pooled buffers across all classes. -/
def sumLen (ps : List (List (List Nat))) : Nat := (ps.map List.length).sum

theorem sumLen_ge : ∀ (ps : List (List (List Nat))) (c : Nat)
    (l : List (List Nat)), ps[c]? = some l → l.length ≤ sumLen ps := by
  intro ps
  induction ps with
  | nil => intro c l h; simp at h
  | cons head tail ih =>
    intro c l h
    cases c with
    | zero =>
      simp at h
      subst h
      simp [sumLen]
    | succ c' =>
      simp at h
      have := ih c' l h
      simp [sumLen] at this ⊢
      omega

theorem sumLen_set : ∀ (ps : List (List (List Nat))) (c : Nat)
    (l x : List (List Nat)), ps[c]? = some l →
    sumLen (ps.set c x) = sumLen ps - l.length + x.length := by
  intro ps
  induction ps with
  | nil => intro c l x h; simp at h
  | cons head tail ih =>
    intro c l x h
    cases c with
    | zero =>
      simp at h
      subst h
      simp [sumLen]
      omega
    | succ c' =>
      simp at h
      have hge := sumLen_ge tail c' l h
      have := ih c' l x h
      simp [sumLen, List.set] at this hge ⊢
      omega

/-- The pool invariant: ten classes, each free list within the per-class
capacity and holding only cleared buffers, and `current_pooled` equal to the
total pooled count. -/
theorem pool_invariant : ∀ s, Reach s →
    s.pools.length = 10 ∧
      (∀ l ∈ s.pools, l.length ≤ s.max_pool_size ∧ ∀ b ∈ l, b = ([] : List Nat)) ∧
      s.metrics.current_pooled = sumLen s.pools := by
  intro s h
  induction h with
  | init m =>
    refine ⟨rfl, ?_, rfl⟩
    intro l hl
    rw [List.eq_of_mem_replicate hl]
    simp
  | acquire s n _ ih =>
    obtain ⟨hlen, hcls, hsum⟩ := ih
    unfold BufferPool.acquire
    cases hp : s.pools[size_class n]? with
    | none => simpa [hp] using ⟨hlen, hcls, hsum⟩
    | some l =>
      cases l with
      | nil => simpa [hp] using ⟨hlen, hcls, hsum⟩
      | cons b rest =>
        have hmem : (b :: rest) ∈ s.pools := by
          have := List.getElem?_eq_some_iff.mp hp
          obtain ⟨hlt, hget⟩ := this
          exact hget ▸ List.getElem_mem hlt
        have hrest := hcls (b :: rest) hmem
        refine ⟨by simpa [hp] using hlen, ?_, ?_⟩
        · intro l' hl'
          simp only [hp] at hl' ⊢
          rcases List.mem_or_eq_of_mem_set hl' with hmem' | rfl
          · exact hcls l' hmem'
          · constructor
            · have := hrest.1
              simp at this ⊢
              omega
            · intro b' hb'
              exact hrest.2 b' (List.mem_cons_of_mem b hb')
        · simp only [hp]
          rw [sumLen_set s.pools (size_class n) (b :: rest) rest hp]
          have hge := sumLen_ge s.pools (size_class n) (b :: rest) hp
          simp at hge ⊢
          omega
  | release s c b _ hc ih =>
    obtain ⟨hlen, hcls, hsum⟩ := ih
    unfold BufferPool.release
    cases hp : s.pools[c]? with
    | none => exact ⟨hlen, hcls, hsum⟩
    | some l =>
      dsimp only
      by_cases hcap : l.length < s.max_pool_size
      · rw [if_pos hcap]
        have hmem : l ∈ s.pools := by
          have := List.getElem?_eq_some_iff.mp hp
          obtain ⟨hlt, hget⟩ := this
          exact hget ▸ List.getElem_mem hlt
        refine ⟨by simpa using hlen, ?_, ?_⟩
        · intro l' hl'
          simp only at hl' ⊢
          rcases List.mem_or_eq_of_mem_set hl' with hmem' | rfl
          · exact hcls l' hmem'
          · constructor
            · simp
              omega
            · intro b' hb'
              rcases List.mem_cons.mp hb' with rfl | hb''
              · rfl
              · exact (hcls l hmem).2 b' hb''
        · simp only
          rw [sumLen_set s.pools c l ([] :: l) hp]
          have hge := sumLen_ge s.pools c l hp
          simp
          omega
      · rw [if_neg hcap]
        exact ⟨hlen, hcls, hsum⟩

end Pool

theorem sumLen_le : ∀ (ps : List (List (List Nat))) (m : Nat),
    (∀ l ∈ ps, l.length ≤ m) → Pool.sumLen ps ≤ ps.length * m := by
  intro ps
  induction ps with
  | nil => intro m _; simp [Pool.sumLen]
  | cons head tail ih =>
    intro m h
    have h1 := h head (List.mem_cons_self head tail)
    have h2 := ih m fun l hl => h l (List.mem_cons_of_mem head hl)
    simp [Pool.sumLen] at h2 ⊢
    calc head.length + (tail.map List.length).sum ≤ m + tail.length * m := by omega
      _ = (tail.length + 1) * m := by ring

/-- C9 counterexample: with `max_pool_size = 1`, acquiring a class-0 and a
class-1 buffer and releasing both is a reachable execution whose
`current_pooled` is 2 > 1 = `max_pool_size`: the capacity check is per
class, while `current_pooled` counts all classes. -/
theorem c9_counterexample :
    Pool.Reach ((((((Pool.BufferPool.new 1).acquire 64).1.acquire 128).1).release
        ⟨0, List.replicate 64 0⟩).release ⟨1, List.replicate 128 0⟩) ∧
      ¬ (((((((Pool.BufferPool.new 1).acquire 64).1.acquire 128).1).release
            ⟨0, List.replicate 64 0⟩).release ⟨1, List.replicate 128 0⟩).metrics.current_pooled ≤
          ((((((Pool.BufferPool.new 1).acquire 64).1.acquire 128).1).release
            ⟨0, List.replicate 64 0⟩).release ⟨1, List.replicate 128 0⟩).max_pool_size) := by
  constructor
  · exact Pool.Reach.release _ 1 (List.replicate 128 0)
      (Pool.Reach.release _ 0 (List.replicate 64 0)
        (Pool.Reach.acquire _ 128 (Pool.Reach.acquire _ 64 (Pool.Reach.init 1)))
        (by norm_num))
      (by norm_num)
  · decide

/-- C9 amended: in every reachable pool state, each size class's free list
holds at most `max_pool_size` buffers (releasing pushes a cleared buffer
only when the class list is below capacity, else discards it), and
`current_pooled` equals the total pooled count, which is therefore bounded
by `10 * max_pool_size` — but not by `max_pool_size` itself. -/
theorem c9_amended (s : Pool.BufferPool) (hs : Pool.Reach s) :
    (∀ l ∈ s.pools, l.length ≤ s.max_pool_size) ∧
      s.metrics.current_pooled = Pool.sumLen s.pools ∧
      s.metrics.current_pooled ≤ 10 * s.max_pool_size := by
  obtain ⟨hlen, hcls, hsum⟩ := Pool.pool_invariant s hs
  refine ⟨fun l hl => (hcls l hl).1, hsum, ?_⟩
  rw [hsum]
  calc Pool.sumLen s.pools ≤ s.pools.length * s.max_pool_size :=
        sumLen_le s.pools s.max_pool_size fun l hl => (hcls l hl).1
    _ = 10 * s.max_pool_size := by rw [hlen]

/-- Witness for the amended C9 at the freshly created pool. -/
theorem c9_amended_witness :
    (∀ l ∈ (Pool.BufferPool.new 1).pools,
        l.length ≤ (Pool.BufferPool.new 1).max_pool_size) ∧
      (Pool.BufferPool.new 1).metrics.current_pooled =
        Pool.sumLen (Pool.BufferPool.new 1).pools ∧
      (Pool.BufferPool.new 1).metrics.current_pooled ≤
        10 * (Pool.BufferPool.new 1).max_pool_size :=
  c9_amended (Pool.BufferPool.new 1) (Pool.Reach.init 1)

/-- C10: in any reachable pool state, `acquire` on a pool hit returns the
previously released buffer, which is empty (release cleared it and acquire
does not resize), so its length is 0; on a pool miss it returns a
zero-filled buffer of exactly the matched class's size `64 * 2 ^ class`;
and the class size is never 0, so a hit's buffer length always differs from
a miss's. -/
theorem c10_acquire_lengths (s : Pool.BufferPool) (hs : Pool.Reach s) (n : Nat) :
    (∀ b rest, s.pools[Pool.size_class n]? = some (b :: rest) →
        ((s.acquire n).2.buffer = [] ∧ (s.acquire n).2.buffer.length = 0)) ∧
      (s.pools[Pool.size_class n]? = some [] →
        ((s.acquire n).2.buffer =
            List.replicate (Pool.class_to_size (Pool.size_class n)) 0 ∧
          (s.acquire n).2.buffer.length = Pool.class_to_size (Pool.size_class n))) ∧
      Pool.class_to_size (Pool.size_class n) ≠ 0 := by
  obtain ⟨_, hcls, _⟩ := Pool.pool_invariant s hs
  refine ⟨?_, ?_, ?_⟩
  · intro b rest hp
    have hmem : (b :: rest) ∈ s.pools := by
      obtain ⟨hlt, hget⟩ := List.getElem?_eq_some_iff.mp hp
      exact hget ▸ List.getElem_mem hlt
    have hb : b = [] := (hcls (b :: rest) hmem).2 b (List.mem_cons_self b rest)
    unfold Pool.BufferPool.acquire
    dsimp only
    rw [hp]
    subst hb
    exact ⟨rfl, rfl⟩
  · intro hp
    unfold Pool.BufferPool.acquire
    dsimp only
    rw [hp]
    exact ⟨rfl, by simp⟩
  · unfold Pool.class_to_size
    rw [Nat.shiftLeft_eq]
    positivity

/-- Witness for C10: a miss on the fresh pool (class of 100 is empty) and a
hit right after a release. -/
theorem c10_acquire_lengths_witness :
    (((Pool.BufferPool.new 1).acquire 100).2.buffer =
        List.replicate (Pool.class_to_size (Pool.size_class 100)) 0 ∧
      ((Pool.BufferPool.new 1).acquire 100).2.buffer.length =
        Pool.class_to_size (Pool.size_class 100)) ∧
      (((((Pool.BufferPool.new 1).acquire 64).1.release ⟨0, []⟩).acquire 64).2.buffer = [] ∧
        (((((Pool.BufferPool.new 1).acquire 64).1.release ⟨0, []⟩).acquire 64).2.buffer.length = 0)) :=
  ⟨(c10_acquire_lengths (Pool.BufferPool.new 1) (Pool.Reach.init 1) 100).2.1 (by decide),
   (c10_acquire_lengths (((Pool.BufferPool.new 1).acquire 64).1.release ⟨0, []⟩)
      (Pool.Reach.release _ 0 []
        (Pool.Reach.acquire _ 64 (Pool.Reach.init 1)) (by norm_num)) 64).1
     [] [] (by decide)⟩

namespace RustImpl

/-- The wire-type-0 loop of `ReaderImpl::skip_type` (src/rust/src/reader.rs
lines 179-190): consume bytes until one has the continuation bit clear. -/
def skipVarintLoop (buf : List Nat) (pos : Nat) : Except Err Nat :=
  match h : buf[pos]? with
  | none => .error .indexOutOfRange
  | some byte =>
    if byte < 0x80 then .ok (pos + 1)
    else skipVarintLoop buf (pos + 1)
termination_by buf.length - pos
decreasing_by
  have hlt : pos < buf.length := (List.getElem?_eq_some_iff.mp h).1
  omega

/-- The bounded 5-iteration skip loop inside `ReaderImpl::read_varint32`
(src/rust/src/reader.rs lines 44-56), run when the 5th byte still has its
continuation bit set. -/
def rv32SkipLoop (buf : List Nat) : Nat → Nat → Nat → Except Err (Nat × Nat)
  | pos, value, 0 => .ok (value, pos)
  | pos, value, fuel + 1 =>
    match buf[pos]? with
    | none => .error .indexOutOfRange
    | some b =>
      if b < 0x80 then .ok (value, pos + 1)
      else rv32SkipLoop buf (pos + 1) value fuel

/-- Loop of `ReaderImpl::read_varint32` (src/rust/src/reader.rs lines
28-66): at `shift == 28` only the low 4 bits of the byte are used, and if
the continuation bit is still set up to 5 further bytes are skipped without
affecting the value.  Returns the value and the final cursor. -/
def read_varint32Go (buf : List Nat) (pos value shift : Nat) :
    Except Err (Nat × Nat) :=
  match h : buf[pos]? with
  | none => .error .indexOutOfRange
  | some byte =>
    if shift == 28 then
      let v := value ||| ((byte &&& 0x0F) <<< 28) % 2 ^ 32
      if byte < 0x80 then .ok (v, pos + 1)
      else rv32SkipLoop buf (pos + 1) v 5
    else
      let v := value ||| ((byte &&& 0x7F) <<< shift) % 2 ^ 32
      if byte < 0x80 then .ok (v, pos + 1)
      else read_varint32Go buf (pos + 1) v (shift + 7)
termination_by buf.length - pos
decreasing_by
  have hlt : pos < buf.length := (List.getElem?_eq_some_iff.mp h).1
  omega

theorem skipVarintLoop_bound_fuel :
    ∀ (fuel : Nat) (buf : List Nat) (pos p : Nat), buf.length - pos ≤ fuel →
      skipVarintLoop buf pos = .ok p → pos < p ∧ p ≤ buf.length := by
  intro fuel
  induction fuel with
  | zero =>
    intro buf pos p hf h
    rw [skipVarintLoop] at h
    split at h
    · simp at h
    · rename_i byte heq
      have := (List.getElem?_eq_some_iff.mp heq).1
      omega
  | succ f ih =>
    intro buf pos p hf h
    rw [skipVarintLoop] at h
    split at h
    · simp at h
    · rename_i byte heq
      have hlt := (List.getElem?_eq_some_iff.mp heq).1
      split at h
      · injection h with h1
        omega
      · have := ih buf (pos + 1) p (by omega) h
        omega

theorem skipVarintLoop_bound {buf : List Nat} {pos p : Nat}
    (h : skipVarintLoop buf pos = .ok p) : pos < p ∧ p ≤ buf.length :=
  skipVarintLoop_bound_fuel buf.length buf pos p (by omega) h

theorem rv32SkipLoop_bound :
    ∀ (fuel : Nat) (buf : List Nat) (pos value v p : Nat), pos ≤ buf.length →
      rv32SkipLoop buf pos value fuel = .ok (v, p) →
      pos ≤ p ∧ p ≤ buf.length := by
  intro fuel
  induction fuel with
  | zero =>
    intro buf pos value v p hpos h
    rw [rv32SkipLoop] at h
    injection h with h1
    injection h1 with h2 h3
    omega
  | succ f ih =>
    intro buf pos value v p hpos h
    rw [rv32SkipLoop] at h
    split at h
    · simp at h
    · rename_i b heq
      have hlt := (List.getElem?_eq_some_iff.mp heq).1
      split at h
      · injection h with h1
        injection h1 with h2 h3
        omega
      · have := ih buf (pos + 1) value v p (by omega) h
        omega

theorem read_varint32Go_bound_fuel :
    ∀ (fuel : Nat) (buf : List Nat) (pos value shift v p : Nat),
      buf.length - pos ≤ fuel →
      read_varint32Go buf pos value shift = .ok (v, p) →
      pos < p ∧ p ≤ buf.length := by
  intro fuel
  induction fuel with
  | zero =>
    intro buf pos value shift v p hf h
    rw [read_varint32Go] at h
    split at h
    · simp at h
    · rename_i byte heq
      have := (List.getElem?_eq_some_iff.mp heq).1
      omega
  | succ f ih =>
    intro buf pos value shift v p hf h
    rw [read_varint32Go] at h
    split at h
    · simp at h
    · rename_i byte heq
      have hlt := (List.getElem?_eq_some_iff.mp heq).1
      split at h
      · split at h
        · injection h with h1
          injection h1 with h2 h3
          omega
        · have := rv32SkipLoop_bound 5 buf (pos + 1) _ v p (by omega) h
          omega
      · split at h
        · injection h with h1
          injection h1 with h2 h3
          omega
        · have := ih buf (pos + 1) _ (shift + 7) v p (by omega) h
          omega

theorem read_varint32Go_bound {buf : List Nat} {pos value shift v p : Nat}
    (h : read_varint32Go buf pos value shift = .ok (v, p)) :
    pos < p ∧ p ≤ buf.length :=
  read_varint32Go_bound_fuel buf.length buf pos value shift v p (by omega) h

end RustImpl

namespace RustImpl

mutual

/-- `ReaderImpl::skip_type` (src/rust/src/reader.rs lines 177-222) as a
function from buffer and cursor to the new cursor.  Wire type 0 runs the
varint skip loop; 1 and 5 bounds-check and skip 8 / 4 bytes (`skip` inlined:
`check_bounds(len)` then `pos += len`); 2 reads a length varint then skips
that many bytes; 3 delegates to the group loop `skipGroup`; anything else
(including 4) fails with the invalid-wire-type error.  The result carries
the cursor-progress invariant `pos < p ≤ buf.length` — true of every
successful skip — which justifies termination of the mutual recursion with
`skipGroup`. -/
def skipType (buf : List Nat) (pos : Nat) (wt : Nat) :
    Except Err {p : Nat // pos < p ∧ p ≤ buf.length} :=
  match wt with
  | 0 =>
    match hres : skipVarintLoop buf pos with
    | .error e => .error e
    | .ok p => .ok ⟨p, skipVarintLoop_bound hres⟩
  | 1 =>
    if h : pos + 8 ≤ buf.length then .ok ⟨pos + 8, by omega⟩
    else .error .indexOutOfRange
  | 2 =>
    match hres : read_varint32Go buf pos 0 0 with
    | .error e => .error e
    | .ok (len, p1) =>
      if h : p1 + len ≤ buf.length then
        .ok ⟨p1 + len, by have := read_varint32Go_bound hres; omega⟩
      else .error .indexOutOfRange
  | 3 => skipGroup buf pos
  | 5 =>
    if h : pos + 4 ≤ buf.length then .ok ⟨pos + 4, by omega⟩
    else .error .indexOutOfRange
  | _ => .error .invalidWireType
termination_by (buf.length - pos, 1)
decreasing_by
  apply Prod.Lex.right
  omega

/-- The wire-type-3 loop of `ReaderImpl::skip_type`: read a tag, stop when
its wire type is 4 (end group), otherwise skip that field and continue. -/
def skipGroup (buf : List Nat) (pos : Nat) :
    Except Err {p : Nat // pos < p ∧ p ≤ buf.length} :=
  match hres : read_varint32Go buf pos 0 0 with
  | .error e => .error e
  | .ok (tag, p1) =>
    if tag &&& 7 == 4 then .ok ⟨p1, read_varint32Go_bound hres⟩
    else
      match skipType buf p1 (tag &&& 7) with
      | .error e => .error e
      | .ok ⟨p2, h2⟩ =>
        match skipGroup buf p2 with
        | .error e => .error e
        | .ok ⟨p3, h3⟩ =>
          .ok ⟨p3, by have := read_varint32Go_bound hres; omega⟩
termination_by (buf.length - pos, 0)
decreasing_by
  · have := read_varint32Go_bound hres
    apply Prod.Lex.left
    omega
  · have := read_varint32Go_bound hres
    apply Prod.Lex.left
    omega

end

/-- `ReaderImpl::skip_type` on reader state. -/
def ReaderImpl.skip_type (r : ReaderImpl) (wire_type : Nat) :
    Except Err ReaderImpl :=
  (skipType r.buf r.pos wire_type).map fun p => { r with pos := p.val }

end RustImpl

theorem and_15_eq_mod (b : Nat) : b &&& 0x0F = b % 16 := by
  have h := Nat.and_pow_two_sub_one_eq_mod b 4
  norm_num at h
  exact h

/-- The skip loop consumes exactly one canonical varint. -/
theorem skipVarintLoop_varint (n : Nat) :
    ∀ (pos : Nat) (buf rest : List Nat),
      buf.drop pos = varintBytes n ++ rest →
      RustImpl.skipVarintLoop buf pos = .ok (pos + (varintBytes n).length) := by
  induction n using Nat.strong_induction_on with
  | _ n ih =>
    intro pos buf rest hdrop
    by_cases hsmall : n < 128
    · have hvb : varintBytes n = [n] := varintBytes_small hsmall
      rw [hvb] at hdrop
      obtain ⟨hget, _, _⟩ := drop_cons_facts hdrop
      rw [RustImpl.skipVarintLoop, hget]
      simp [hsmall, hvb]
    · have hvb : varintBytes n = (n % 128 + 128) :: varintBytes (n / 128) := by
        rw [varintBytes.eq_def]; simp [hsmall]
      rw [hvb, List.cons_append] at hdrop
      obtain ⟨hget, hnext, _⟩ := drop_cons_facts hdrop
      rw [RustImpl.skipVarintLoop, hget]
      dsimp only
      have hcont : ¬ (n % 128 + 128 < 0x80) := by omega
      rw [if_neg hcont, ih (n / 128) (Nat.div_lt_self (by omega) (by norm_num))
        (pos + 1) buf rest hnext, hvb]
      simp
      omega

/-- `read_varint32Go` decodes each canonical varint whose value fits the
remaining 32-bit budget, with `shift = 7 * j`. -/
theorem read_varint32Go_varint (n : Nat) :
    ∀ (j acc pos : Nat) (buf rest : List Nat),
      buf.drop pos = varintBytes n ++ rest →
      j ≤ 4 →
      n < 2 ^ (32 - 7 * j) →
      RustImpl.read_varint32Go buf pos acc (7 * j) =
        .ok (acc ||| n <<< (7 * j), pos + (varintBytes n).length) := by
  induction n using Nat.strong_induction_on with
  | _ n ih =>
    intro j acc pos buf rest hdrop hj hn
    by_cases hj4 : j = 4
    · subst hj4
      have hn16 : n < 16 := by norm_num at hn; omega
      have hvb : varintBytes n = [n] := varintBytes_small (by omega)
      rw [hvb] at hdrop
      obtain ⟨hget, _, _⟩ := drop_cons_facts hdrop
      rw [RustImpl.read_varint32Go, hget]
      dsimp only
      have hmask : n &&& 0x0F = n := by
        rw [and_15_eq_mod, Nat.mod_eq_of_lt hn16]
      have hsl : n <<< 28 < 2 ^ 32 := by
        rw [Nat.shiftLeft_eq]
        calc n * 2 ^ 28 < 16 * 2 ^ 28 :=
              (Nat.mul_lt_mul_right (by norm_num)).mpr hn16
          _ ≤ 2 ^ 32 := by norm_num
      have h28 : (7 : Nat) * 4 = 28 := by norm_num
      rw [h28]
      simp only [hmask, Nat.mod_eq_of_lt hsl]
      norm_num
      rw [if_pos (by omega : n < 0x80)]
      simp [hvb]
    · have hne : ((7 : Nat) * j == 28) = false := beq_eq_false_iff_ne.mpr (by omega)
      by_cases hsmall : n < 128
      · have hvb : varintBytes n = [n] := varintBytes_small hsmall
        rw [hvb] at hdrop
        obtain ⟨hget, _, _⟩ := drop_cons_facts hdrop
        rw [RustImpl.read_varint32Go, hget]
        dsimp only
        have hmask : n &&& 0x7F = n := by
          rw [and_127_eq_mod, Nat.mod_eq_of_lt hsmall]
        have hsl : n <<< (7 * j) < 2 ^ 32 := by
          rw [Nat.shiftLeft_eq]
          calc n * 2 ^ (7 * j) < 2 ^ (32 - 7 * j) * 2 ^ (7 * j) :=
                (Nat.mul_lt_mul_right (Nat.pos_pow_of_pos _ (by norm_num))).mpr hn
            _ = 2 ^ (32 - 7 * j + 7 * j) := by rw [← pow_add]
            _ ≤ 2 ^ 32 := Nat.pow_le_pow_right (by norm_num) (by omega)
        have hsl' := Nat.mod_eq_of_lt hsl
        simp only [hne, Bool.false_eq_true, if_false, hmask, hsl']
        rw [if_pos hsmall, hvb]
        simp
      · have hvb : varintBytes n = (n % 128 + 128) :: varintBytes (n / 128) := by
          rw [varintBytes.eq_def]; simp [hsmall]
        rw [hvb, List.cons_append] at hdrop
        obtain ⟨hget, hnext, _⟩ := drop_cons_facts hdrop
        rw [RustImpl.read_varint32Go, hget]
        dsimp only
        have hmodlt : n % 128 < 128 := Nat.mod_lt n (by norm_num)
        have hmask : (n % 128 + 128) &&& 0x7F = n % 128 := by
          rw [and_127_eq_mod, Nat.add_mod_right, Nat.mod_eq_of_lt hmodlt]
        have hj3 : j ≤ 3 := by
          by_contra hb
          have hj4' : j = 4 := by omega
          exact hj4 hj4'
        have hbudget : 8 ≤ 32 - 7 * j := by
          by_contra hb
          have : n < 128 := by
            calc n < 2 ^ (32 - 7 * j) := hn
              _ ≤ 2 ^ 7 := Nat.pow_le_pow_right (by norm_num) (by omega)
              _ = 128 := by norm_num
          omega
        have hsl : (n % 128) <<< (7 * j) < 2 ^ 32 := by
          rw [Nat.shiftLeft_eq]
          calc (n % 128) * 2 ^ (7 * j) < 128 * 2 ^ (7 * j) :=
                (Nat.mul_lt_mul_right (Nat.pos_pow_of_pos _ (by norm_num))).mpr hmodlt
            _ = 2 ^ (7 + 7 * j) := by
                rw [show (128 : Nat) = 2 ^ 7 by norm_num, ← pow_add]
            _ ≤ 2 ^ 32 := Nat.pow_le_pow_right (by norm_num) (by omega)
        have hdivlt : n / 128 < 2 ^ (32 - 7 * (j + 1)) := by
          rw [Nat.div_lt_iff_lt_mul (by norm_num : (0 : Nat) < 128)]
          calc n < 2 ^ (32 - 7 * j) := hn
            _ = 2 ^ (32 - 7 * (j + 1)) * 128 := by
              rw [show (128 : Nat) = 2 ^ 7 by norm_num, ← pow_add,
                show 32 - 7 * (j + 1) + 7 = 32 - 7 * j by omega]
        have hrec := ih (n / 128) (Nat.div_lt_self (by omega) (by norm_num))
          (j + 1) (acc ||| (n % 128) <<< (7 * j)) (pos + 1) buf rest hnext
          (by omega) hdivlt
        have hstep : 7 * j + 7 = 7 * (j + 1) := by omega
        have hcont : ¬ (n % 128 + 128 < 0x80) := by omega
        have hsl' := Nat.mod_eq_of_lt hsl
        simp only [hne, Bool.false_eq_true, if_false, hmask, hsl']
        rw [if_neg hcont, hstep, hrec, Nat.lor_assoc, ← hstep, varint_digit_lor, hvb]
        simp
        omega

namespace Decoder

/-- Error values of src/src/rust/decoder.rs, one constructor per
`Error::from_reason` message used by the skip paths. -/
inductive Err where
  | unexpectedEnd
  | varintTooLong
  | invalidVarint
  | invalidWireType
  | skipBeyondEnd
deriving DecidableEq

/-- Loop of `Decoder::decode_varint` (src/src/rust/decoder.rs lines 48-74),
with `fuel = 10 - i`: bounds check, accumulate 7 bits into a u64, stop on a
clear continuation bit; the 10th byte with its continuation bit still set
fails with the too-long error (the post-loop "Invalid varint" return is
unreachable and corresponds to `fuel = 0`).  Returns the value and the new
cursor. -/
def dvGo (buf : List Nat) : Nat → Nat → Nat → Nat → Except Err (Nat × Nat)
  | _, _, _, 0 => .error .invalidVarint
  | pos, result, shift, fuel + 1 =>
    match buf[pos]? with
    | none => .error .unexpectedEnd
    | some byte =>
      let result' := result ||| ((byte &&& 0x7F) <<< shift) % 2 ^ 64
      if byte &&& 0x80 == 0 then .ok (result', pos + 1)
      else if fuel == 0 then .error .varintTooLong
      else dvGo buf (pos + 1) result' (shift + 7) fuel

/-- `Decoder::decode_varint` on a buffer and cursor. -/
def decode_varint (buf : List Nat) (pos : Nat) : Except Err (Nat × Nat) :=
  dvGo buf pos 0 0 10

/-- `Decoder::skip` (src/src/rust/decoder.rs lines 215-222). -/
def skip (buf : List Nat) (pos count : Nat) : Except Err Nat :=
  if buf.length < pos + count then .error .skipBeyondEnd
  else .ok (pos + count)

/-- `Decoder::skip_field` (src/src/rust/decoder.rs lines 226-253).  Note the
match has no arm for wire type 3 (start group): it falls into the catch-all
invalid-wire-type error.  For wire type 2 the length is the decoded varint
cast `as u32`. -/
def skip_field (buf : List Nat) (pos : Nat) (wire_type : Nat) :
    Except Err Nat :=
  match wire_type with
  | 0 => (decode_varint buf pos).map fun vp => vp.2
  | 1 => skip buf pos 8
  | 2 =>
    match decode_varint buf pos with
    | .error e => .error e
    | .ok (v, p1) => skip buf p1 (v % 2 ^ 32)
  | 5 => skip buf pos 4
  | _ => .error .invalidWireType

end Decoder

/-- `Decoder::decode_varint` decodes each canonical varint whose value fits
the remaining bit budget, with `shift = 7 * j` and `fuel = 10 - j`. -/
theorem dec_dvGo_varint (n : Nat) :
    ∀ (j acc pos : Nat) (buf rest : List Nat),
      buf.drop pos = varintBytes n ++ rest →
      j ≤ 9 →
      n < 2 ^ (64 - 7 * j) →
      Decoder.dvGo buf pos acc (7 * j) (10 - j) =
        .ok (acc ||| n <<< (7 * j), pos + (varintBytes n).length) := by
  induction n using Nat.strong_induction_on with
  | _ n ih =>
    intro j acc pos buf rest hdrop hj hn
    obtain ⟨f, hf⟩ : ∃ f, 10 - j = f + 1 := ⟨9 - j, by omega⟩
    rw [hf]
    by_cases hsmall : n < 128
    · have hvb : varintBytes n = [n] := varintBytes_small hsmall
      rw [hvb] at hdrop
      obtain ⟨hget, _, _⟩ := drop_cons_facts hdrop
      rw [Decoder.dvGo, hget]
      dsimp only
      have hmask : n &&& 0x7F = n := by
        rw [and_127_eq_mod, Nat.mod_eq_of_lt hsmall]
      have hsl : n <<< (7 * j) < 2 ^ 64 := by
        rw [Nat.shiftLeft_eq]
        calc n * 2 ^ (7 * j) < 2 ^ (64 - 7 * j) * 2 ^ (7 * j) :=
              (Nat.mul_lt_mul_right (Nat.pos_pow_of_pos _ (by norm_num))).mpr hn
          _ = 2 ^ (64 - 7 * j + 7 * j) := by rw [← pow_add]
          _ ≤ 2 ^ 64 := Nat.pow_le_pow_right (by norm_num) (by omega)
      simp only [hmask, Nat.mod_eq_of_lt hsl, and_128_eq_zero hsmall, hvb]
      simp
    · have hvb : varintBytes n = (n % 128 + 128) :: varintBytes (n / 128) := by
        rw [varintBytes.eq_def]; simp [hsmall]
      rw [hvb, List.cons_append] at hdrop
      obtain ⟨hget, hnext, _⟩ := drop_cons_facts hdrop
      rw [Decoder.dvGo, hget]
      dsimp only
      have hmodlt : n % 128 < 128 := Nat.mod_lt n (by norm_num)
      have hmask : (n % 128 + 128) &&& 0x7F = n % 128 := by
        rw [and_127_eq_mod, Nat.add_mod_right, Nat.mod_eq_of_lt hmodlt]
      have hhi : (n % 128 + 128) &&& 0x80 = 128 := and_128_of_ge (by omega) (by omega)
      have hbudget : 8 ≤ 64 - 7 * j := by
        by_contra hb
        have : n < 128 := by
          calc n < 2 ^ (64 - 7 * j) := hn
            _ ≤ 2 ^ 7 := Nat.pow_le_pow_right (by norm_num) (by omega)
            _ = 128 := by norm_num
        omega
      have hj8 : j ≤ 8 := by omega
      have hfpos : (f == 0) = false := beq_eq_false_iff_ne.mpr (by omega)
      have hsl : (n % 128) <<< (7 * j) < 2 ^ 64 := by
        rw [Nat.shiftLeft_eq]
        calc (n % 128) * 2 ^ (7 * j) < 128 * 2 ^ (7 * j) :=
              (Nat.mul_lt_mul_right (Nat.pos_pow_of_pos _ (by norm_num))).mpr hmodlt
          _ = 2 ^ (7 + 7 * j) := by
              rw [show (128 : Nat) = 2 ^ 7 by norm_num, ← pow_add]
          _ ≤ 2 ^ 64 := Nat.pow_le_pow_right (by norm_num) (by omega)
      have hdivlt : n / 128 < 2 ^ (64 - 7 * (j + 1)) := by
        rw [Nat.div_lt_iff_lt_mul (by norm_num : (0 : Nat) < 128)]
        calc n < 2 ^ (64 - 7 * j) := hn
          _ = 2 ^ (64 - 7 * (j + 1)) * 128 := by
            rw [show (128 : Nat) = 2 ^ 7 by norm_num, ← pow_add,
              show 64 - 7 * (j + 1) + 7 = 64 - 7 * j by omega]
      have hrec := ih (n / 128) (Nat.div_lt_self (by omega) (by norm_num))
        (j + 1) (acc ||| (n % 128) <<< (7 * j)) (pos + 1) buf rest hnext
        (by omega) hdivlt
      have hfuel : 10 - (j + 1) = f := by omega
      rw [hfuel] at hrec
      have hstep : 7 * j + 7 = 7 * (j + 1) := by omega
      have hsl' := Nat.mod_eq_of_lt hsl
      simp only [hmask, hsl', hhi, hfpos, Bool.false_eq_true, if_false]
      norm_num
      rw [hstep, hrec, Nat.lor_assoc, ← hstep, varint_digit_lor, hvb]
      simp
      omega

theorem drop_append_of_drop {buf A X : List Nat} {pos : Nat}
    (h : buf.drop pos = A ++ X) : buf.drop (pos + A.length) = X := by
  have h2 : buf.drop (pos + A.length) = (buf.drop pos).drop A.length := by
    rw [List.drop_drop]
  rw [h2, h, List.drop_left]

theorem map_val_ok {P : Nat → Prop} {e : Except RustImpl.Err {p : Nat // P p}}
    {v : Nat} (h : e.map Subtype.val = .ok v) : ∃ hp : P v, e = .ok ⟨v, hp⟩ := by
  cases e with
  | error err => simp [Except.map] at h
  | ok x =>
    simp [Except.map] at h
    subst h
    exact ⟨x.property, rfl⟩

theorem tag_eq {w : Nat} (fn : Nat) (hw : w < 8) : fn <<< 3 ||| w = 8 * fn + w := by
  rw [Nat.lor_comm, lor_shiftLeft_eq_add 3 fn (by omega)]
  omega

theorem tag_and7 {w : Nat} (fn : Nat) (hw : w < 8) : (fn <<< 3 ||| w) &&& 7 = w := by
  rw [tag_eq fn hw]
  have h := Nat.and_pow_two_sub_one_eq_mod (8 * fn + w) 3
  norm_num at h
  rw [h]
  omega

theorem tag_lt {fn w : Nat} (hfn : fn < 2 ^ 29) (hw : w < 8) :
    fn <<< 3 ||| w < 2 ^ 32 := by
  rw [tag_eq fn hw]
  have hfn' : fn < 536870912 := by norm_num at hfn; omega
  norm_num
  omega

/-- `skipType` at wire type 0 returns whatever the varint skip loop
returns. -/
theorem skipType_wt0 {buf : List Nat} {pos p : Nat}
    (h : RustImpl.skipVarintLoop buf pos = .ok p) :
    (RustImpl.skipType buf pos 0).map Subtype.val = .ok p := by
  rw [RustImpl.skipType]
  split
  · rename_i e heq
    rw [h] at heq
    cases heq
  · rename_i p' heq
    rw [h] at heq
    injection heq with h1
    subst h1
    rfl

theorem skipType_wt1 {buf : List Nat} {pos : Nat} (h : pos + 8 ≤ buf.length) :
    (RustImpl.skipType buf pos 1).map Subtype.val = .ok (pos + 8) := by
  rw [RustImpl.skipType, dif_pos h]
  rfl

theorem skipType_wt2 {buf : List Nat} {pos len p1 : Nat}
    (h : RustImpl.read_varint32Go buf pos 0 0 = .ok (len, p1))
    (hb : p1 + len ≤ buf.length) :
    (RustImpl.skipType buf pos 2).map Subtype.val = .ok (p1 + len) := by
  rw [RustImpl.skipType]
  split
  · rename_i e heq
    rw [h] at heq
    cases heq
  · rename_i len' p1' heq
    rw [h] at heq
    injection heq with h1
    injection h1 with h2 h3
    subst h2
    subst h3
    rw [dif_pos hb]
    rfl

theorem skipType_wt3 (buf : List Nat) (pos : Nat) :
    RustImpl.skipType buf pos 3 = RustImpl.skipGroup buf pos := by
  rw [RustImpl.skipType]

theorem skipType_wt5 {buf : List Nat} {pos : Nat} (h : pos + 4 ≤ buf.length) :
    (RustImpl.skipType buf pos 5).map Subtype.val = .ok (pos + 4) := by
  rw [RustImpl.skipType, dif_pos h]
  rfl

theorem skipType_invalid (buf : List Nat) (pos : Nat) {wt : Nat}
    (h : wt = 4 ∨ 5 < wt) :
    RustImpl.skipType buf pos wt = .error .invalidWireType := by
  rcases h with rfl | hgt
  · rw [RustImpl.skipType]
    all_goals omega
  · obtain ⟨k, rfl⟩ : ∃ k, wt = k + 6 := ⟨wt - 6, by omega⟩
    rw [RustImpl.skipType]
    all_goals omega

/-- `skipGroup` stops at a tag with wire type 4. -/
theorem skipGroup_end {buf : List Nat} {pos tag p1 : Nat}
    (h : RustImpl.read_varint32Go buf pos 0 0 = .ok (tag, p1))
    (ht : tag &&& 7 = 4) :
    (RustImpl.skipGroup buf pos).map Subtype.val = .ok p1 := by
  rw [RustImpl.skipGroup]
  split
  · rename_i e heq
    rw [h] at heq
    cases heq
  · rename_i tag' p1' heq
    rw [h] at heq
    injection heq with h1
    injection h1 with h2 h3
    subst h2
    subst h3
    rw [if_pos (by simp [ht])]
    rfl

/-- `skipGroup` on a non-end tag skips the field and continues. -/
theorem skipGroup_step {buf : List Nat} {pos tag p1 p2 p3 : Nat}
    (h : RustImpl.read_varint32Go buf pos 0 0 = .ok (tag, p1))
    (ht : tag &&& 7 ≠ 4)
    (hs : (RustImpl.skipType buf p1 (tag &&& 7)).map Subtype.val = .ok p2)
    (hg : (RustImpl.skipGroup buf p2).map Subtype.val = .ok p3) :
    (RustImpl.skipGroup buf pos).map Subtype.val = .ok p3 := by
  obtain ⟨hp2, hs'⟩ := map_val_ok hs
  obtain ⟨hp3, hg'⟩ := map_val_ok hg
  rw [RustImpl.skipGroup]
  split
  · rename_i e heq
    rw [h] at heq
    cases heq
  · rename_i tag' p1' heq
    rw [h] at heq
    injection heq with h1
    injection h1 with h2 h3
    subst h2
    subst h3
    rw [if_neg (by simpa using ht), hs']
    dsimp only
    rw [hg']
    rfl

/-- Abstract syntax of encodable protobuf fields, one constructor per wire
type (0 varint, 1 fixed 64-bit, 2 length-delimited, 3 group, 5 fixed
32-bit); a group's payload is a list of fields followed by its end tag. -/
inductive PbField where
  | vint (fn n : Nat) : PbField
  | fix64 (fn : Nat) (bs : List Nat) : PbField
  | ld (fn : Nat) (bs : List Nat) : PbField
  | grp (fn : Nat) (body : List PbField) : PbField
  | fix32 (fn : Nat) (bs : List Nat) : PbField

/-- Wire type of a field. -/
def wireOf : PbField → Nat
  | .vint _ _ => 0
  | .fix64 _ _ => 1
  | .ld _ _ => 2
  | .grp _ _ => 3
  | .fix32 _ _ => 5

/-- Field number of a field. -/
def fnOf : PbField → Nat
  | .vint fn _ => fn
  | .fix64 fn _ => fn
  | .ld fn _ => fn
  | .grp fn _ => fn
  | .fix32 fn _ => fn

/-- The field's tag value, `(field_number << 3) | wire_type`. -/
def tagOf (f : PbField) : Nat := fnOf f <<< 3 ||| wireOf f

mutual

/-- Bytes of a field's payload (everything after its tag): a varint, 8 raw
bytes, a length varint plus raw bytes, a group body closed by the group's
end tag, or 4 raw bytes. -/
def payloadBytes : PbField → List Nat
  | .vint _ n => varintBytes n
  | .fix64 _ bs => bs
  | .ld _ bs => varintBytes bs.length ++ bs
  | .grp fn body => bodyBytes body ++ varintBytes (fn <<< 3 ||| 4)
  | .fix32 _ bs => bs

/-- Bytes of a group body: each field's tag varint followed by its
payload. -/
def bodyBytes : List PbField → List Nat
  | [] => []
  | f :: fs => (varintBytes (tagOf f) ++ payloadBytes f) ++ bodyBytes fs

end

mutual

/-- Well-formed field: the field number fits 29 bits (so the tag fits in a
u32), fixed payloads have their exact width, a length-delimited payload
fits a u32 length, and group bodies are recursively well-formed. -/
inductive WfF : PbField → Prop where
  | vint {fn n : Nat} : fn < 2 ^ 29 → WfF (.vint fn n)
  | fix64 {fn : Nat} {bs : List Nat} : fn < 2 ^ 29 → bs.length = 8 →
      WfF (.fix64 fn bs)
  | ld {fn : Nat} {bs : List Nat} : fn < 2 ^ 29 → bs.length < 2 ^ 32 →
      WfF (.ld fn bs)
  | grp {fn : Nat} {body : List PbField} : fn < 2 ^ 29 → WfB body →
      WfF (.grp fn body)
  | fix32 {fn : Nat} {bs : List Nat} : fn < 2 ^ 29 → bs.length = 4 →
      WfF (.fix32 fn bs)

/-- Well-formed group body: every field in it is well-formed. -/
inductive WfB : List PbField → Prop where
  | nil : WfB []
  | cons {f : PbField} {fs : List PbField} : WfF f → WfB fs → WfB (f :: fs)

end

theorem wireOf_lt (f : PbField) : wireOf f < 8 := by
  cases f <;> simp [wireOf]

theorem wireOf_ne4 (f : PbField) : wireOf f ≠ 4 := by
  cases f <;> simp [wireOf]

theorem wfF_fn {f : PbField} (h : WfF f) : fnOf f < 2 ^ 29 := by
  cases h with
  | vint h1 => exact h1
  | fix64 h1 h2 => exact h1
  | ld h1 h2 => exact h1
  | grp h1 h2 => exact h1
  | fix32 h1 h2 => exact h1

theorem drop_eq_length {buf L rest : List Nat} {pos : Nat}
    (h : buf.drop pos = L ++ rest) :
    buf.length - pos = L.length + rest.length := by
  have h2 := congrArg List.length h
  simpa using h2

mutual

/-- After a field's tag has been consumed, `skip_type` at the field's wire
type consumes exactly the field's payload bytes, whatever their content. -/
theorem skipType_payload (f : PbField) (hw : WfF f) (buf rest : List Nat)
    (pos : Nat) (hdrop : buf.drop pos = payloadBytes f ++ rest) :
    (RustImpl.skipType buf pos (wireOf f)).map Subtype.val =
      .ok (pos + (payloadBytes f).length) := by
  cases f with
  | vint fn n =>
    simp only [payloadBytes, wireOf] at hdrop ⊢
    exact skipType_wt0 (skipVarintLoop_varint n pos buf rest hdrop)
  | fix64 fn bs =>
    cases hw with
    | fix64 hfn hlen =>
      simp only [payloadBytes, wireOf] at hdrop ⊢
      have hl := drop_eq_length hdrop
      have hb : pos + 8 ≤ buf.length := by omega
      rw [skipType_wt1 hb, hlen]
  | ld fn bs =>
    cases hw with
    | ld hfn hlen =>
      simp only [payloadBytes, wireOf] at hdrop ⊢
      rw [List.append_assoc] at hdrop
      have htag := read_varint32Go_varint bs.length 0 0 pos buf (bs ++ rest)
        hdrop (by norm_num) (by simpa using hlen)
      simp only [Nat.mul_zero, Nat.shiftLeft_zero, Nat.zero_or] at htag
      have hl := drop_eq_length hdrop
      simp only [List.length_append] at hl
      have hb : pos + (varintBytes bs.length).length + bs.length ≤
          buf.length := by
        have := varintBytes_length_pos bs.length
        omega
      rw [skipType_wt2 htag hb]
      simp only [List.length_append, Except.ok.injEq]
      omega
  | grp fn body =>
    cases hw with
    | grp hfn hb =>
      simp only [payloadBytes, wireOf] at hdrop ⊢
      rw [skipType_wt3, skipGroup_body body hb fn hfn buf rest pos hdrop]
      simp only [List.length_append, Except.ok.injEq]
      omega
  | fix32 fn bs =>
    cases hw with
    | fix32 hfn hlen =>
      simp only [payloadBytes, wireOf] at hdrop ⊢
      have hl := drop_eq_length hdrop
      have hb : pos + 4 ≤ buf.length := by omega
      rw [skipType_wt5 hb, hlen]

/-- The group loop of `skip_type` consumes exactly a well-formed group body
followed by an end-group tag, stopping right after that tag. -/
theorem skipGroup_body (body : List PbField) (hb : WfB body) (fn : Nat)
    (hfn : fn < 2 ^ 29) (buf rest : List Nat) (pos : Nat)
    (hdrop : buf.drop pos =
      bodyBytes body ++ varintBytes (fn <<< 3 ||| 4) ++ rest) :
    (RustImpl.skipGroup buf pos).map Subtype.val =
      .ok (pos + (bodyBytes body).length +
        (varintBytes (fn <<< 3 ||| 4)).length) := by
  cases body with
  | nil =>
    simp only [bodyBytes, List.nil_append] at hdrop ⊢
    have htag := read_varint32Go_varint (fn <<< 3 ||| 4) 0 0 pos buf rest
      hdrop (by norm_num) (by simpa using tag_lt hfn (show (4 : Nat) < 8 by norm_num))
    simp only [Nat.mul_zero, Nat.shiftLeft_zero, Nat.zero_or] at htag
    rw [skipGroup_end htag (tag_and7 fn (by norm_num))]
    simp [List.length_nil]
  | cons f fs =>
    cases hb with
    | cons hwf hwb =>
      simp only [bodyBytes, List.append_assoc] at hdrop
      have htag := read_varint32Go_varint (tagOf f) 0 0 pos buf
        (payloadBytes f ++ (bodyBytes fs ++ (varintBytes (fn <<< 3 ||| 4) ++ rest)))
        hdrop (by norm_num)
        (by simpa using tag_lt (wfF_fn hwf) (wireOf_lt f))
      simp only [Nat.mul_zero, Nat.shiftLeft_zero, Nat.zero_or] at htag
      have hand : tagOf f &&& 7 = wireOf f := tag_and7 (fnOf f) (wireOf_lt f)
      have hdrop1 := drop_append_of_drop hdrop
      have hskip := skipType_payload f hwf buf
        (bodyBytes fs ++ (varintBytes (fn <<< 3 ||| 4) ++ rest))
        (pos + (varintBytes (tagOf f)).length) hdrop1
      rw [← hand] at hskip
      have hdrop2 := drop_append_of_drop hdrop1
      rw [← List.append_assoc] at hdrop2
      have hrec := skipGroup_body fs hwb fn hfn buf rest
        (pos + (varintBytes (tagOf f)).length + (payloadBytes f).length)
        hdrop2
      have hne : tagOf f &&& 7 ≠ 4 := by
        rw [hand]
        exact wireOf_ne4 f
      rw [skipGroup_step htag hne hskip hrec]
      congr 2
      simp only [bodyBytes, List.length_append]
      omega

end

/-- C8 counterexample: `Decoder::skip_field` (src/src/rust/decoder.rs) has
no match arm for wire type 3 (start group), so on the well-formed group
`[0x08, 0x05, 0x0C]` (field 1 varint 5, then the field-1 end-group tag) it
fails with the invalid-wire-type error instead of recursively skipping the
group body to position 3 as the claim states. -/
theorem c8_counterexample :
    Decoder.skip_field [8, 5, 12] 0 3 = .error .invalidWireType ∧
    Decoder.skip_field [8, 5, 12] 0 3 ≠ .ok 3 :=
  ⟨rfl, by decide⟩

/-- C8 amended: `ReaderImpl::skip_type` (src/rust/src/reader.rs) consumes
exactly one varint for wire type 0, exactly 8 bytes for wire type 1, a
length varint plus that many bytes for wire type 2 (regardless of the
payload's content), a whole well-formed group body up to and including its
end-group tag for wire type 3, exactly 4 bytes for wire type 5, and fails
with the invalid-wire-type error for wire type 4 or any value above 5;
`Decoder::skip_field` (src/src/rust/decoder.rs) behaves the same for wire
types 0, 1, 2 and 5, but fails with the invalid-wire-type error for every
other value — including wire type 3, for which it has no group-skipping
arm. -/
theorem c8_amended :
    (∀ (buf rest : List Nat) (pos n : Nat),
        buf.drop pos = varintBytes n ++ rest →
        (RustImpl.skipType buf pos 0).map Subtype.val =
          .ok (pos + (varintBytes n).length))
  ∧ (∀ (buf : List Nat) (pos : Nat), pos + 8 ≤ buf.length →
        (RustImpl.skipType buf pos 1).map Subtype.val = .ok (pos + 8))
  ∧ (∀ (buf payload rest : List Nat) (pos : Nat),
        payload.length < 2 ^ 32 →
        buf.drop pos = varintBytes payload.length ++ payload ++ rest →
        (RustImpl.skipType buf pos 2).map Subtype.val =
          .ok (pos + (varintBytes payload.length).length + payload.length))
  ∧ (∀ (body : List PbField) (fn : Nat) (buf rest : List Nat) (pos : Nat),
        WfB body → fn < 2 ^ 29 →
        buf.drop pos =
          bodyBytes body ++ varintBytes (fn <<< 3 ||| 4) ++ rest →
        (RustImpl.skipType buf pos 3).map Subtype.val =
          .ok (pos + (bodyBytes body).length +
            (varintBytes (fn <<< 3 ||| 4)).length))
  ∧ (∀ (buf : List Nat) (pos : Nat), pos + 4 ≤ buf.length →
        (RustImpl.skipType buf pos 5).map Subtype.val = .ok (pos + 4))
  ∧ (∀ (buf : List Nat) (pos wt : Nat), wt = 4 ∨ 5 < wt →
        RustImpl.skipType buf pos wt = .error .invalidWireType)
  ∧ (∀ (buf rest : List Nat) (pos n : Nat), n < 2 ^ 64 →
        buf.drop pos = varintBytes n ++ rest →
        Decoder.skip_field buf pos 0 = .ok (pos + (varintBytes n).length))
  ∧ (∀ (buf : List Nat) (pos : Nat), pos + 8 ≤ buf.length →
        Decoder.skip_field buf pos 1 = .ok (pos + 8))
  ∧ (∀ (buf payload rest : List Nat) (pos : Nat),
        payload.length < 2 ^ 32 →
        buf.drop pos = varintBytes payload.length ++ payload ++ rest →
        Decoder.skip_field buf pos 2 =
          .ok (pos + (varintBytes payload.length).length + payload.length))
  ∧ (∀ (buf : List Nat) (pos : Nat), pos + 4 ≤ buf.length →
        Decoder.skip_field buf pos 5 = .ok (pos + 4))
  ∧ (∀ (buf : List Nat) (pos wt : Nat), wt = 3 ∨ wt = 4 ∨ 5 < wt →
        Decoder.skip_field buf pos wt = .error .invalidWireType) := by
  refine ⟨?_, ?_, ?_, ?_, ?_, ?_, ?_, ?_, ?_, ?_, ?_⟩
  · intro buf rest pos n hdrop
    exact skipType_wt0 (skipVarintLoop_varint n pos buf rest hdrop)
  · intro buf pos h
    exact skipType_wt1 h
  · intro buf payload rest pos hlt hdrop
    rw [List.append_assoc] at hdrop
    have htag := read_varint32Go_varint payload.length 0 0 pos buf
      (payload ++ rest) hdrop (by norm_num) (by simpa using hlt)
    simp only [Nat.mul_zero, Nat.shiftLeft_zero, Nat.zero_or] at htag
    have hl := drop_eq_length hdrop
    simp only [List.length_append] at hl
    exact skipType_wt2 htag
      (by have := varintBytes_length_pos payload.length; omega)
  · intro body fn buf rest pos hwb hfn hdrop
    rw [skipType_wt3]
    exact skipGroup_body body hwb fn hfn buf rest pos hdrop
  · intro buf pos h
    exact skipType_wt5 h
  · intro buf pos wt h
    exact skipType_invalid buf pos h
  · intro buf rest pos n h64 hdrop
    have h := dec_dvGo_varint n 0 0 pos buf rest hdrop (by norm_num)
      (by simpa using h64)
    simp only [Nat.mul_zero, Nat.sub_zero, Nat.shiftLeft_zero,
      Nat.zero_or] at h
    simp only [Decoder.skip_field, Decoder.decode_varint]
    rw [h]
    rfl
  · intro buf pos h
    simp only [Decoder.skip_field, Decoder.skip]
    rw [if_neg (by omega)]
  · intro buf payload rest pos hlt hdrop
    rw [List.append_assoc] at hdrop
    have h := dec_dvGo_varint payload.length 0 0 pos buf (payload ++ rest)
      hdrop (by norm_num)
      (by simpa using hlt.trans (by norm_num : (2 : Nat) ^ 32 < 2 ^ 64))
    simp only [Nat.mul_zero, Nat.sub_zero, Nat.shiftLeft_zero,
      Nat.zero_or] at h
    have hl := drop_eq_length hdrop
    simp only [List.length_append] at hl
    have hp := varintBytes_length_pos payload.length
    simp only [Decoder.skip_field, Decoder.decode_varint]
    rw [h]
    dsimp only
    rw [Nat.mod_eq_of_lt hlt]
    simp only [Decoder.skip]
    rw [if_neg (by omega)]
  · intro buf pos h
    simp only [Decoder.skip_field, Decoder.skip]
    rw [if_neg (by omega)]
  · intro buf pos wt h
    rcases h with rfl | rfl | hgt
    · rfl
    · rfl
    · obtain ⟨k, rfl⟩ : ∃ k, wt = k + 6 := ⟨wt - 6, by omega⟩
      rfl

/-- Witness for the amended C8, exercising every conjunct on concrete
buffers: a one-byte varint, 8 raw bytes, a 2-byte length-delimited payload,
a group `[0x08, 0x05, 0x0C]`, 4 raw bytes, and the invalid wire types 4
(for `skip_type`) and 3 (for `skip_field`). -/
theorem c8_amended_witness :
    (RustImpl.skipType [5, 9] 0 0).map Subtype.val = .ok 1
  ∧ (RustImpl.skipType [0, 1, 2, 3, 4, 5, 6, 7] 0 1).map Subtype.val =
      .ok 8
  ∧ (RustImpl.skipType [2, 9, 9, 7] 0 2).map Subtype.val = .ok 3
  ∧ (RustImpl.skipType [8, 5, 12] 0 3).map Subtype.val = .ok 3
  ∧ (RustImpl.skipType [0, 1, 2, 3] 0 5).map Subtype.val = .ok 4
  ∧ RustImpl.skipType [] 0 4 = .error .invalidWireType
  ∧ Decoder.skip_field [5, 9] 0 0 = .ok 1
  ∧ Decoder.skip_field [0, 1, 2, 3, 4, 5, 6, 7] 0 1 = .ok 8
  ∧ Decoder.skip_field [2, 9, 9, 7] 0 2 = .ok 3
  ∧ Decoder.skip_field [0, 1, 2, 3] 0 5 = .ok 4
  ∧ Decoder.skip_field [] 0 3 = .error .invalidWireType := by
  obtain ⟨h0, h1, h2, h3, h5, hinv, d0, d1, d2, d5, dinv⟩ := c8_amended
  refine ⟨?_, ?_, ?_, ?_, ?_, ?_, ?_, ?_, ?_, ?_, ?_⟩
  · have hv5 : varintBytes 5 = [5] := varintBytes_small (by norm_num)
    have h := h0 [5, 9] [9] 0 5 (by simp [hv5])
    simpa [hv5] using h
  · have h := h1 [0, 1, 2, 3, 4, 5, 6, 7] 0 (by decide)
    simpa using h
  · have hv2 : varintBytes 2 = [2] := varintBytes_small (by norm_num)
    have h := h2 [2, 9, 9, 7] [9, 9] [7] 0 (by norm_num) (by simp [hv2])
    simpa [hv2] using h
  · have e0 : (1 <<< 3 ||| (0 : Nat)) = 8 := by decide
    have e4 : (1 <<< 3 ||| (4 : Nat)) = 12 := by decide
    have hv8 : varintBytes 8 = [8] := varintBytes_small (by norm_num)
    have hv5 : varintBytes 5 = [5] := varintBytes_small (by norm_num)
    have hv12 : varintBytes 12 = [12] := varintBytes_small (by norm_num)
    have hwb : WfB [PbField.vint 1 5] :=
      WfB.cons (WfF.vint (by norm_num)) WfB.nil
    have h := h3 [PbField.vint 1 5] 1 [8, 5, 12] [] 0 hwb (by norm_num)
      (by simp [bodyBytes, payloadBytes, tagOf, fnOf, wireOf, e0, e4,
        hv8, hv5, hv12])
    simpa [bodyBytes, payloadBytes, tagOf, fnOf, wireOf, e0, e4, hv8,
      hv5, hv12] using h
  · have h := h5 [0, 1, 2, 3] 0 (by decide)
    simpa using h
  · exact hinv [] 0 4 (Or.inl rfl)
  · have hv5 : varintBytes 5 = [5] := varintBytes_small (by norm_num)
    have h := d0 [5, 9] [9] 0 5 (by norm_num) (by simp [hv5])
    simpa [hv5] using h
  · have h := d1 [0, 1, 2, 3, 4, 5, 6, 7] 0 (by decide)
    simpa using h
  · have hv2 : varintBytes 2 = [2] := varintBytes_small (by norm_num)
    have h := d2 [2, 9, 9, 7] [9, 9] [7] 0 (by norm_num) (by simp [hv2])
    simpa [hv2] using h
  · have h := d5 [0, 1, 2, 3] 0 (by decide)
    simpa using h
  · exact dinv [] 0 3 (Or.inl rfl)

end Pb
